import Mathlib

/-!
Shallow embedding of `src/src/ringct_material.rs` (RingCT signing and
verification over BLS12-381 G1) and theorems about it.

Modelling conventions:
* `Scalar` is `ZMod rOrder` with `rOrder` the order of the BLS12-381 scalar
  field `F_r`; this is the exact group of scalars used by the code.
* Group points are kept parametric in an additive commutative group `P`.
  The prime-order subgroup `G1` used by all honest-signer arithmetic is a
  cyclic group of order `rOrder`, so it is instantiated with `Scalar`
  itself (the exponent representation relative to the generator); the full
  curve group `E(F_p)`, which has composite order `h * rOrder` with cofactor
  `h = hOrder`, is instantiated with `ZMod rOrder × ZMod hOrder` when the
  distinction between the curve and its prime-order subgroup matters.
* `point * scalar` in the Rust code multiplies a point by the integer
  representative of the scalar; this is `smulS s p = s.val • p`.
* The hash functions are external (Keccak/SHA3 and the curve library's
  domain-separated hash-to-curve), so they enter as parameters `Hp` (the
  `hash_to_curve` of `ringct_material.rs`) and `cHash` (`c_hash`); all
  completeness/closure theorems hold for every choice of these functions.
* Randomness: the caller's `RngCore` is modelled as the `u32` word drawn
  for `pi` (`piWord`) plus a stream `rs : ℕ → Scalar` of the successive
  `Scalar::random` draws, threaded by an explicit index.  Functions that
  draw randomness return the next unused index alongside their result, so
  the number of scalars sampled before an error is observable.
* Panics (`assert_eq!`, `panic!`, out-of-bounds indexing) are modelled as
  typed errors (`Except`).  In-bounds indexing that cannot panic is
  rendered with `List.getD`.
-/

deriving instance DecidableEq for Except

namespace SnRingct

/-- Order of the BLS12-381 scalar field `F_r` (the order of the `G1`
prime-order subgroup); `blstrs::Scalar` is the field of this order. -/
def rOrder : ℕ := 52435875175126190479447740508185965837690552500527637822603658699938581184513

/-- Cofactor of `G1` in the BLS12-381 curve group `E(F_p)`:
`#E(F_p) = hOrder * rOrder`. -/
def hOrder : ℕ := 76329603384216526031706109802092473003

instance : NeZero rOrder := ⟨by decide⟩

/-- The scalar field, as used by `blstrs::Scalar`. -/
abbrev Scalar : Type := ZMod rOrder

/-- Model of the full curve group `E(F_p)` of order `hOrder * rOrder`:
the first factor is the prime-order subgroup `G1`, the second factor is
the cofactor part.  (Modelled from the spec: the curve library is an
external collaborator; only the split between the prime-order subgroup
and the rest of the curve group is relevant here.) -/
abbrev CurveFull : Type := ZMod rOrder × ZMod hOrder

/-- Modelled from the spec: membership in the prime-order subgroup `G1`
of the full curve group, i.e. the `hOrder`-torsion component vanishes. -/
def inG1Subgroup (p : CurveFull) : Prop := p.2 = 0

instance (p : CurveFull) : Decidable (inG1Subgroup p) :=
  inferInstanceAs (Decidable (p.2 = 0))

/-- `point * scalar` of the curve library: multiplication of a group
element by the integer representative of the scalar. -/
def smulS {P : Type} [AddCommGroup P] (s : Scalar) (p : P) : P := s.val • p

/-- `RevealedCommitment` of the (absent) `pedersen_commitment` module.
Modelled from the spec ("RevealedCommitment {value, blinding}"); the
`value` field must be a `Scalar` to type-check `ringct_material.rs`,
which stores `Output::amount` (a `Scalar`) into it. -/
structure RevealedCommitment where
  value : Scalar
  blinding : Scalar
deriving DecidableEq

/-- `TrueInput` of `ringct_material.rs`. -/
structure TrueInput where
  secret_key : Scalar
  revealed_commitment : RevealedCommitment
deriving DecidableEq

/-- `DecoyInput` of `ringct_material.rs`. -/
structure DecoyInput (P : Type) where
  public_key : P
  commitment : P
deriving DecidableEq

/-- `Output` of `ringct_material.rs`. -/
structure Output (P : Type) where
  public_key : P
  amount : Scalar
deriving DecidableEq

/-- `RingCT` of `ringct_material.rs`. -/
structure RingCT (P : Type) where
  true_inputs : List TrueInput
  decoy_inputs : List (List (DecoyInput P))
  outputs : List (Output P)
deriving DecidableEq

/-- `RingCTSignature` of `ringct_material.rs`. -/
structure RingCTSignature (P : Type) where
  c0 : List Scalar
  r : List (List (Scalar × Scalar))
  key_images : List P
deriving DecidableEq

/-- `MlsagSignature` of `ringct_material.rs`. -/
structure MlsagSignature (P : Type) where
  c0 : Scalar
  r : List (Scalar × Scalar)
  key_image : P
  ring : List (P × P)
deriving DecidableEq

/-- `PedersenCommitter` of the (absent) `pedersen_commitment` module:
a pair of independent generators. -/
structure PedersenCommitter (P : Type) where
  G : P
  H : P

/-- Modelled from the spec: the two-base Pedersen commitment of the absent
`pedersen_commitment` module.  The argument roles are fixed by the
assertions inside `ringct_mlsag_sign` (`commit(0, x) = x * G1::generator()`
and `G1::generator() * secret_keys.1 = ring[pi].1` must both hold), which
force the blinding to scale the group generator `G` and the value to scale
the auxiliary generator `H`. -/
def PedersenCommitter.commit {P : Type} [AddCommGroup P]
    (pc : PedersenCommitter P) (v b : Scalar) : P :=
  smulS v pc.H + smulS b pc.G

/-- Modelled from the spec: `from_reveal` commits to a revealed value
and blinding. -/
def PedersenCommitter.from_reveal {P : Type} [AddCommGroup P]
    (pc : PedersenCommitter P) (rc : RevealedCommitment) : P :=
  pc.commit rc.value rc.blinding

/-- `PedersenCommitter::default()`: the group generator `gen` together
with the nothing-up-my-sleeve generator `hGen`. -/
def defaultCommitter {P : Type} (gen hGen : P) : PedersenCommitter P :=
  ⟨gen, hGen⟩

/-- `TrueInput::public_key`: `G1Projective::generator() * secret_key`. -/
def TrueInput.public_key {P : Type} [AddCommGroup P] (gen : P) (inp : TrueInput) : P :=
  smulS inp.secret_key gen

/-- `TrueInput::key_image`: `hash_to_curve(public_key) * secret_key`. -/
def TrueInput.key_image {P : Type} [AddCommGroup P] (gen : P) (Hp : P → P)
    (inp : TrueInput) : P :=
  smulS inp.secret_key (Hp (inp.public_key gen))

/-- `Vec::insert(pi, row)`: insert an element at a position, shifting the
tail. -/
def insertAt {α : Type} : ℕ → α → List α → List α
  | 0, a, l => a :: l
  | _ + 1, a, [] => [a]
  | n + 1, a, b :: t => b :: insertAt n a t

/-- Map over a list while drawing one fresh random scalar (stream index
`i`, `i+1`, ...) per element, as `iter().map(|x| ... Scalar::random(rng))`
does. -/
def mapWithRng {α β : Type} (rs : ℕ → Scalar) (f : α → Scalar → β) :
    List α → ℕ → List β
  | [], _ => []
  | a :: rest, i => f a (rs i) :: mapWithRng rs f rest (i + 1)

/-- The common challenge-chain step: the arguments of `c_hash` computed by
the signer's loop (`ringct_mlsag_sign`, offsets `1..R`) and, identically,
by the verifier's loop in `verify`:
`c_hash(msg, G1*r[n].0 + ring[n].0*c, G1*r[n].1 + ring[n].1*c,
 Hp(ring[n].0)*r[n].0 + key_image*c)`. -/
def stepC {P : Type} [AddCommGroup P] (gen : P) (Hp : P → P)
    (cHash : List ℕ → P → P → P → Scalar)
    (msg : List ℕ) (ki : P) (rv : List (Scalar × Scalar)) (rg : List (P × P))
    (c : Scalar) (n : ℕ) : Scalar :=
  cHash msg
    (smulS (rv.getD n (0, 0)).1 gen + smulS c (rg.getD n (0, 0)).1)
    (smulS (rv.getD n (0, 0)).2 gen + smulS c (rg.getD n (0, 0)).2)
    (smulS (rv.getD n (0, 0)).1 (Hp (rg.getD n (0, 0)).1) + smulS c ki)

/-- The signer's challenge-chain loop of `ringct_mlsag_sign`
(`for offset in 1..ring.len()`), unrolled as a recursion on the number of
offsets already processed: processing offset `k+1` reads `c[n]` and
writes `c[(n+1) % R]` for `n = (pi + k + 1) % R`. -/
def mlsagLoop {P : Type} [AddCommGroup P] (gen : P) (Hp : P → P)
    (cHash : List ℕ → P → P → P → Scalar)
    (msg : List ℕ) (ki : P) (rv : List (Scalar × Scalar)) (rg : List (P × P))
    (pi R : ℕ) (cInit : List Scalar) : ℕ → List Scalar
  | 0 => cInit
  | k + 1 =>
    let c := mlsagLoop gen Hp cHash msg ki rv rg pi R cInit k
    let n := (pi + (k + 1)) % R
    c.set ((n + 1) % R) (stepC gen Hp cHash msg ki rv rg (c.getD n 0) n)

/-- The block of `assert_eq!` sanity identities at the end of
`ringct_mlsag_sign` (checked after `r[pi]` has been overwritten), in
source order.  `sks` are the two secret keys, `alpha` the masking pair,
`rpi` the final `r[pi]`, `cpi` the challenge `c[pi]`, `ki` the key
image. -/
def mlsagSanity {P : Type} [AddCommGroup P] [DecidableEq P] (gen : P) (Hp : P → P)
    (ring : List (P × P)) (pi : ℕ) (sks alpha rpi : Scalar × Scalar)
    (cpi : Scalar) (ki : P) : Bool :=
  let rgpi := ring.getD pi (0, 0)
  decide (smulS sks.1 gen = rgpi.1) &&
  decide (smulS sks.2 gen = rgpi.2) &&
  decide (smulS (alpha.1 - cpi * sks.1) gen =
    smulS alpha.1 gen - smulS (cpi * sks.1) gen) &&
  decide (smulS (alpha.2 - cpi * sks.2) gen =
    smulS alpha.2 gen - smulS (cpi * sks.2) gen) &&
  decide (smulS (alpha.1 - cpi * sks.1) gen + smulS cpi rgpi.1 = smulS alpha.1 gen) &&
  decide (smulS (alpha.2 - cpi * sks.2) gen + smulS cpi rgpi.2 = smulS alpha.2 gen) &&
  decide (smulS rpi.1 gen + smulS cpi rgpi.1 =
    smulS (alpha.1 - cpi * sks.1) gen + smulS cpi rgpi.1) &&
  decide (smulS rpi.2 gen + smulS cpi rgpi.2 =
    smulS (alpha.2 - cpi * sks.2) gen + smulS cpi rgpi.2) &&
  decide (smulS rpi.1 (Hp rgpi.1) + smulS cpi ki =
    smulS (alpha.1 - cpi * sks.1) (Hp rgpi.1) + smulS cpi ki) &&
  decide (smulS rpi.2 (Hp rgpi.2) + smulS cpi ki =
    smulS (alpha.2 - cpi * sks.2) (Hp rgpi.2) + smulS cpi ki) &&
  decide (smulS sks.1 (Hp rgpi.1) = ki) &&
  decide (smulS rpi.1 (Hp rgpi.1) + smulS cpi ki =
    smulS (alpha.1 - cpi * sks.1) (Hp rgpi.1) + smulS cpi ki) &&
  decide (smulS rpi.2 (Hp rgpi.2) + smulS cpi ki =
    smulS (alpha.2 - cpi * sks.2) (Hp rgpi.2) + smulS cpi ki)

/-- Typed rendering of the `panic!`/`assert_eq!` failure modes of
`RingCT::sign` and `ringct_mlsag_sign`. -/
inductive SignError : Type
  | raggedDecoyRow
  | emptyOutputs
  | balanceAssert
  | mlsagAssert
  | sanityAssert
deriving DecidableEq

/-- The vector `r` of fresh random pairs drawn by `ringct_mlsag_sign`
(`(0..ring.len()).map(|_| (random, random))`), drawn after the two `alpha`
draws at stream indices `i`, `i+1`. -/
def mlsagR0 (rs : ℕ → Scalar) (i R : ℕ) : List (Scalar × Scalar) :=
  (List.range R).map fun n => (rs (i + 2 + 2 * n), rs (i + 2 + 2 * n + 1))

/-- The initialization of the challenge vector in `ringct_mlsag_sign`:
all zeroes except
`c[(pi+1) % R] = c_hash(msg, G1*alpha.0, G1*alpha.1, Hp(ring[pi].0)*alpha.0)`. -/
def mlsagCInit {P : Type} [AddCommGroup P] (gen : P) (Hp : P → P)
    (cHash : List ℕ → P → P → P → Scalar)
    (msg : List ℕ) (ring : List (P × P)) (pi R : ℕ) (a0 a1 : Scalar) : List Scalar :=
  (List.replicate R (0 : Scalar)).set ((pi + 1) % R)
    (cHash msg (smulS a0 gen) (smulS a1 gen) (smulS a0 (Hp (ring.getD pi (0, 0)).1)))

/-- The final challenge vector `c` computed by `ringct_mlsag_sign` after
its whole `for offset in 1..ring.len()` loop. -/
def mlsagCF {P : Type} [AddCommGroup P] (gen : P) (Hp : P → P)
    (cHash : List ℕ → P → P → P → Scalar)
    (msg : List ℕ) (input : TrueInput) (pi : ℕ) (ring : List (P × P))
    (rs : ℕ → Scalar) (i : ℕ) : List Scalar :=
  mlsagLoop gen Hp cHash msg (input.key_image gen Hp) (mlsagR0 rs i ring.length)
    ring pi ring.length
    (mlsagCInit gen Hp cHash msg ring pi ring.length (rs i) (rs (i + 1)))
    (ring.length - 1)

/-- The final response vector of `ringct_mlsag_sign`:
`r[pi] = (alpha.0 - c[pi]*secret_keys.0, alpha.1 - c[pi]*secret_keys.1)`,
the other entries are the fresh draws. -/
def mlsagRF {P : Type} [AddCommGroup P] (gen : P) (Hp : P → P)
    (cHash : List ℕ → P → P → P → Scalar)
    (msg : List ℕ) (input : TrueInput) (rpc : RevealedCommitment)
    (pi : ℕ) (ring : List (P × P)) (rs : ℕ → Scalar) (i : ℕ) :
    List (Scalar × Scalar) :=
  (mlsagR0 rs i ring.length).set pi
    (rs i - (mlsagCF gen Hp cHash msg input pi ring rs i).getD pi 0 * input.secret_key,
     rs (i + 1) - (mlsagCF gen Hp cHash msg input pi ring rs i).getD pi 0 *
       (input.revealed_commitment.blinding - rpc.blinding))

/-- `ringct_mlsag_sign` of `ringct_material.rs`.  `rs`/`i` is the scalar
randomness stream and its next unused index; the second component of the
result is the index after the call (number of scalars drawn so far). -/
def ringct_mlsag_sign {P : Type} [AddCommGroup P] [DecidableEq P]
    (gen hGen : P) (Hp : P → P) (cHash : List ℕ → P → P → P → Scalar)
    (msg : List ℕ) (input : TrueInput) (rpc : RevealedCommitment)
    (pi : ℕ) (ring : List (P × P)) (rs : ℕ → Scalar) (i : ℕ) :
    Except SignError (MlsagSignature P) × ℕ :=
  if (defaultCommitter gen hGen).commit 0
      (input.revealed_commitment.blinding - rpc.blinding) = (ring.getD pi (0, 0)).2 then
    if mlsagSanity gen Hp ring pi
        (input.secret_key, input.revealed_commitment.blinding - rpc.blinding)
        (rs i, rs (i + 1))
        ((mlsagRF gen Hp cHash msg input rpc pi ring rs i).getD pi (0, 0))
        ((mlsagCF gen Hp cHash msg input pi ring rs i).getD pi 0)
        (input.key_image gen Hp) then
      (.ok ⟨(mlsagCF gen Hp cHash msg input pi ring rs i).getD 0 0,
        mlsagRF gen Hp cHash msg input rpc pi ring rs i,
        input.key_image gen Hp, ring⟩, i + 2 + 2 * ring.length)
    else (.error .sanityAssert, i + 2 + 2 * ring.length)
  else (.error .mlsagAssert, i)

/-- The per-input loop at the end of `RingCT::sign`: for each true input
`m`, assemble the adjusted ring
`ring[n] = (public_keys[n][m], commitments[n][m] - pseudo_commitments[m])`
and run `ringct_mlsag_sign`; the first panic aborts the whole call. -/
def signMlsags {P : Type} [AddCommGroup P] [DecidableEq P]
    (gen hGen : P) (Hp : P → P) (cHash : List ℕ → P → P → P → Scalar)
    (msg : List ℕ) (pi R : ℕ) (rs : ℕ → Scalar)
    (pks cms : List (List P)) (pseudos : List P)
    (pseudoRCs : List RevealedCommitment) :
    List TrueInput → ℕ → ℕ → Except SignError (List (MlsagSignature P)) × ℕ
  | [], _, i => (.ok [], i)
  | inp :: rest, m, i =>
    let ring : List (P × P) := (List.range R).map fun n =>
      ((pks.getD n []).getD m 0, (cms.getD n []).getD m 0 - pseudos.getD m 0)
    match ringct_mlsag_sign gen hGen Hp cHash msg inp (pseudoRCs.getD m ⟨0, 0⟩)
        pi ring rs i with
    | (.error e, i2) => (.error e, i2)
    | (.ok msig, i2) =>
      match signMlsags gen hGen Hp cHash msg pi R rs pks cms pseudos pseudoRCs
          rest (m + 1) i2 with
      | (.error e, i3) => (.error e, i3)
      | (.ok msigs, i3) => (.ok (msig :: msigs), i3)

/-- `RingCT::sign` of `ringct_material.rs`.  `piWord` is the `next_u32()`
draw used for `pi`; `rs` is the stream of `Scalar::random` draws; the
second component of the result is the number of scalars drawn. -/
def RingCT.sign {P : Type} [AddCommGroup P] [DecidableEq P]
    (gen hGen : P) (Hp : P → P) (cHash : List ℕ → P → P → P → Scalar)
    (msg : List ℕ) (rct : RingCT P) (piWord : ℕ) (rs : ℕ → Scalar) :
    Except SignError (RingCTSignature P × List (List (P × P))) × ℕ :=
  let ringSize := rct.decoy_inputs.length + 1
  if rct.decoy_inputs.all (fun row => decide (row.length = rct.true_inputs.length)) then
    let pi := piWord % ringSize
    let committer := defaultCommitter gen hGen
    let publicKeys : List (List P) :=
      insertAt pi (rct.true_inputs.map (TrueInput.public_key gen))
        (rct.decoy_inputs.map fun row => row.map DecoyInput.public_key)
    let commitments : List (List P) :=
      insertAt pi (rct.true_inputs.map fun inp =>
          committer.from_reveal inp.revealed_commitment)
        (rct.decoy_inputs.map fun row => row.map DecoyInput.commitment)
    let M := rct.true_inputs.length
    let revealedPseudo : List RevealedCommitment :=
      mapWithRng rs (fun inp b => ⟨inp.revealed_commitment.value, b⟩)
        rct.true_inputs 0
    let K := rct.outputs.length
    let firstOuts : List RevealedCommitment :=
      mapWithRng rs (fun o b => ⟨o.amount, b⟩) (rct.outputs.take (K - 1)) M
    let correction : Scalar :=
      (revealedPseudo.map RevealedCommitment.blinding).sum -
        (firstOuts.map RevealedCommitment.blinding).sum
    match rct.outputs.getLast? with
    | none => (.error .emptyOutputs, M + (K - 1))
    | some lastOut =>
      let revealedOut : List RevealedCommitment :=
        firstOuts ++ [⟨lastOut.amount, correction⟩]
      let pseudoCommitments : List P := revealedPseudo.map committer.from_reveal
      if pseudoCommitments.sum = (revealedOut.map committer.from_reveal).sum then
        match signMlsags gen hGen Hp cHash msg pi ringSize rs publicKeys
            commitments pseudoCommitments revealedPseudo
            rct.true_inputs 0 (M + (K - 1)) with
        | (.error e, i2) => (.error e, i2)
        | (.ok msigs, i2) =>
          (.ok (⟨msigs.map MlsagSignature.c0, msigs.map MlsagSignature.r,
            msigs.map MlsagSignature.key_image⟩,
            msigs.map MlsagSignature.ring), i2)
      else (.error .balanceAssert, M + (K - 1))
  else (.error .raggedDecoyRow, 0)

/-- The panics `verify` can hit: out-of-bounds `Vec` indexing. -/
inductive VerifyPanic : Type
  | indexOutOfBounds
deriving DecidableEq

/-- The verifier's challenge-chain loop over one ring
(`for (n, keys) in ring.iter().enumerate()`), with fuel equal to the number
of remaining iterations.  Reading `sig.r[m][n]` out of bounds is the panic;
`keys` is `rg[n]`, always in bounds while the fuel lasts. -/
def ringChainGo {P : Type} [AddCommGroup P] (gen : P) (Hp : P → P)
    (cHash : List ℕ → P → P → P → Scalar)
    (msg : List ℕ) (ki : P) (R : ℕ) (rm : List (Scalar × Scalar))
    (rg : List (P × P)) : ℕ → ℕ → List Scalar → Except VerifyPanic (List Scalar)
  | 0, _, c => .ok c
  | fuel + 1, n, c =>
    match rm.get? n with
    | none => .error .indexOutOfBounds
    | some _ =>
      ringChainGo gen Hp cHash msg ki R rm rg fuel (n + 1)
        (c.set ((n + 1) % R) (stepC gen Hp cHash msg ki rm rg (c.getD n 0) n))

/-- The per-ring loop of `verify` (`for (m, ring) in rings.iter().enumerate()`):
read `sig.c0[m]` (panic when out of bounds), write it into `cprime[0]`
(panic when the ring is empty), replay the chain, reject on mismatch. -/
def verifyRings {P : Type} [AddCommGroup P] [DecidableEq P] (gen : P) (Hp : P → P)
    (cHash : List ℕ → P → P → P → Scalar)
    (msg : List ℕ) (sig : RingCTSignature P) :
    List (List (P × P)) → ℕ → Except VerifyPanic Bool
  | [], _ => .ok true
  | ring :: rest, m =>
    match sig.c0.get? m with
    | none => .error .indexOutOfBounds
    | some c0m =>
      if ring.length = 0 then .error .indexOutOfBounds
      else
        match sig.r.get? m with
        | none => .error .indexOutOfBounds
        | some rm =>
          let cInit := (List.replicate ring.length (0 : Scalar)).set 0 c0m
          match ringChainGo gen Hp cHash msg (sig.key_images.getD m 0) ring.length
              rm ring ring.length 0 cInit with
          | .error e => .error e
          | .ok cOut =>
            if c0m = cOut.getD 0 0 then
              verifyRings gen Hp cHash msg sig rest (m + 1)
            else .ok false

/-- `verify` of `ringct_material.rs`.  `isOnCurve` is the curve library's
`G1Affine::is_on_curve` check (a parameter, since the curve arithmetic is
external); for elements of the prime-order subgroup model it is
identically `true`. -/
def verify {P : Type} [AddCommGroup P] [DecidableEq P] (gen : P) (Hp : P → P)
    (cHash : List ℕ → P → P → P → Scalar) (isOnCurve : P → Bool)
    (msg : List ℕ) (sig : RingCTSignature P) (rings : List (List (P × P))) :
    Except VerifyPanic Bool :=
  if sig.key_images.all isOnCurve then
    if sig.key_images.length = rings.length then
      verifyRings gen Hp cHash msg sig rings 0
    else .ok false
  else .ok false

/-- Specification of the signer's challenge chain: `chainVal ... j` is the
challenge value written at ring index `(pi + 1 + j) % R`; `j = 0` is the
initialization from `alpha`, and each further value feeds the previous one
through the common step at the previous index. -/
def chainVal {P : Type} [AddCommGroup P] (gen : P) (Hp : P → P)
    (cHash : List ℕ → P → P → P → Scalar)
    (msg : List ℕ) (ki : P) (rv : List (Scalar × Scalar)) (rg : List (P × P))
    (pi R : ℕ) (init : Scalar) : ℕ → Scalar
  | 0 => init
  | j + 1 => stepC gen Hp cHash msg ki rv rg
      (chainVal gen Hp cHash msg ki rv rg pi R init j) ((pi + 1 + j) % R)

/-- A single MLSAG signature whose embedded ring is nonempty and whose
challenge chain, replayed by the verifier's loop from `c0`, closes back
on `c0`. -/
def MlsagGood {P : Type} [AddCommGroup P] (gen : P) (Hp : P → P)
    (cHash : List ℕ → P → P → P → Scalar) (msg : List ℕ)
    (ms : MlsagSignature P) : Prop :=
  ms.ring ≠ [] ∧ ms.r.length = ms.ring.length ∧
  ∃ cOut, ringChainGo gen Hp cHash msg ms.key_image ms.ring.length ms.r ms.ring
      ms.ring.length 0 ((List.replicate ms.ring.length (0 : Scalar)).set 0 ms.c0) =
      .ok cOut ∧ ms.c0 = cOut.getD 0 0

/-- The rejection-resample loop of `hash_to_scalar`: the digest map
(SHA3-256 on 32 bytes, external) is the parameter `sha`, a digest is its
little-endian value, `Scalar::from_bytes_le` succeeds exactly on values
below the field order.  The loop is rendered with explicit fuel; the
initial digest of the input material is `sha material`. -/
def hashLoop (sha : ℕ → ℕ) : ℕ → ℕ → Option Scalar
  | 0, _ => none
  | fuel + 1, h => if h < rOrder then some ((h : ℕ) : Scalar) else hashLoop sha fuel (sha h)

/-- `hash_to_scalar` of `ringct_material.rs`, with the SHA3 digest map
abstract and explicit fuel. -/
def hash_to_scalar (sha : ℕ → ℕ) (material : ℕ) (fuel : ℕ) : Option Scalar :=
  hashLoop sha fuel (sha material)

/-! ### Helper lemmas: lists, modular index arithmetic, scalar action -/

theorem getD_set_self {α : Type} (l : List α) (n : ℕ) (a d : α) (h : n < l.length) :
    (l.set n a).getD n d = a := by
  induction l generalizing n with
  | nil => simp at h
  | cons b t ih =>
    cases n with
    | zero => rfl
    | succ n => exact ih n (by simpa using h)

theorem getD_set_ne {α : Type} (l : List α) (m n : ℕ) (a d : α) (h : m ≠ n) :
    (l.set m a).getD n d = l.getD n d := by
  induction l generalizing m n with
  | nil => simp
  | cons b t ih =>
    cases m with
    | zero =>
      cases n with
      | zero => exact absurd rfl h
      | succ n => rfl
    | succ m =>
      cases n with
      | zero => rfl
      | succ n => exact ih m n (by omega)

theorem getD_of_get? {α : Type} {l : List α} {n : ℕ} {a : α} (h : l.get? n = some a)
    (d : α) : l.getD n d = a := by
  simp [List.getD_eq_getElem?_getD, ← List.get?_eq_getElem?, h]

theorem get?_of_lt_length {α : Type} {l : List α} {n : ℕ} (h : n < l.length) (d : α) :
    l.get? n = some (l.getD n d) := by
  rw [List.get?_eq_getElem?, List.getElem?_eq_getElem h]
  simp [List.getD_eq_getElem?_getD, List.getElem?_eq_getElem h]

theorem getD_map_lt {α β : Type} (f : α → β) (l : List α) (n : ℕ) (d : β) (d2 : α)
    (h : n < l.length) : (l.map f).getD n d = f (l.getD n d2) := by
  induction l generalizing n with
  | nil => simp at h
  | cons b t ih =>
    cases n with
    | zero => rfl
    | succ n => exact ih n (by simpa using h)

theorem getD_map_range {α : Type} (f : ℕ → α) (R n : ℕ) (d : α) (h : n < R) :
    ((List.range R).map f).getD n d = f n := by
  rw [getD_map_lt f _ n d 0 (by simpa using h)]
  congr 1
  exact getD_of_get? (by simp [List.get?_eq_getElem?, List.getElem?_range h]) 0

theorem length_mapWithRng {α β : Type} (rs : ℕ → Scalar) (f : α → Scalar → β) :
    ∀ (l : List α) (i : ℕ), (mapWithRng rs f l i).length = l.length := by
  intro l
  induction l with
  | nil => intro i; rfl
  | cons a t ih => intro i; simpa [mapWithRng] using ih (i + 1)

theorem getD_mapWithRng {α β : Type} (rs : ℕ → Scalar) (f : α → Scalar → β)
    (l : List α) : ∀ (i n : ℕ) (d : β) (d2 : α), n < l.length →
    (mapWithRng rs f l i).getD n d = f (l.getD n d2) (rs (i + n)) := by
  induction l with
  | nil => intro i n d d2 h; simp at h
  | cons a t ih =>
    intro i n d d2 h
    cases n with
    | zero => simp [mapWithRng]
    | succ n =>
      have := ih (i + 1) n d d2 (by simpa using h)
      simpa [mapWithRng, Nat.add_assoc, Nat.add_comm 1 n] using this

theorem map_mapWithRng {α β γ : Type} (rs : ℕ → Scalar) (f : α → Scalar → β)
    (g : β → γ) (h : α → γ) (hgf : ∀ a b, g (f a b) = h a) :
    ∀ (l : List α) (i : ℕ), (mapWithRng rs f l i).map g = l.map h := by
  intro l
  induction l with
  | nil => intro i; rfl
  | cons a t ih => intro i; simp [mapWithRng, hgf, ih (i + 1)]

theorem mod_succ_mod (a R : ℕ) : (a % R + 1) % R = (a + 1) % R := by
  rw [Nat.add_mod a 1, Nat.add_mod (a % R) 1, Nat.mod_mod_of_dvd a dvd_rfl]

theorem mod_ne_mod (a b R : ℕ) (h1 : a < b) (h2 : b - a < R) : b % R ≠ a % R := by
  intro h
  have hd : R ∣ b - a := (Nat.modEq_iff_dvd' (le_of_lt h1)).mp (Nat.ModEq.symm h)
  have := Nat.le_of_dvd (by omega) hd
  omega

theorem exists_offset (pi n R : ℕ) (hR : 0 < R) (hn : n < R) :
    ∃ j, j < R ∧ (pi + 1 + j) % R = n := by
  refine ⟨(n + R - (pi + 1) % R) % R, Nat.mod_lt _ hR, ?_⟩
  have ht : (pi + 1) % R < R := Nat.mod_lt _ hR
  calc (pi + 1 + (n + R - (pi + 1) % R) % R) % R
      = ((pi + 1) % R + (n + R - (pi + 1) % R) % R) % R := by
        rw [Nat.mod_add_mod]
    _ = ((pi + 1) % R + (n + R - (pi + 1) % R)) % R := by
        rw [Nat.add_mod_mod]
    _ = (n + R) % R := by
        congr 1
        omega
    _ = n := by
        rw [Nat.add_mod_right]
        exact Nat.mod_eq_of_lt hn

theorem smulS_scalar (s x : Scalar) : smulS s x = s * x := by
  rw [smulS, nsmul_eq_mul, ZMod.natCast_rightInverse s]

theorem smulS_zero_left {P : Type} [AddCommGroup P] (p : P) : smulS 0 p = 0 := by
  simp [smulS, ZMod.val_zero]

/-! ### The signer's challenge chain -/

theorem length_mlsagLoop {P : Type} [AddCommGroup P] (gen : P) (Hp : P → P)
    (cHash : List ℕ → P → P → P → Scalar) (msg : List ℕ) (ki : P)
    (rv : List (Scalar × Scalar)) (rg : List (P × P)) (pi R : ℕ)
    (cInit : List Scalar) :
    ∀ k, (mlsagLoop gen Hp cHash msg ki rv rg pi R cInit k).length = cInit.length := by
  intro k
  induction k with
  | zero => rfl
  | succ k ih => simpa [mlsagLoop] using ih

theorem mlsagLoop_getD {P : Type} [AddCommGroup P] (gen : P) (Hp : P → P)
    (cHash : List ℕ → P → P → P → Scalar) (msg : List ℕ) (ki : P)
    (rv : List (Scalar × Scalar)) (rg : List (P × P)) (pi R : ℕ)
    (cInit : List Scalar) (hR : 0 < R) (hlen : cInit.length = R) :
    ∀ k, k ≤ R - 1 → ∀ j, j ≤ k →
      (mlsagLoop gen Hp cHash msg ki rv rg pi R cInit k).getD ((pi + 1 + j) % R) 0 =
        chainVal gen Hp cHash msg ki rv rg pi R (cInit.getD ((pi + 1) % R) 0) j := by
  intro k
  induction k with
  | zero =>
    intro _ j hj
    interval_cases j
    rfl
  | succ k ih =>
    intro hk1 j hj
    have hk : k ≤ R - 1 := by omega
    have hlenk : (mlsagLoop gen Hp cHash msg ki rv rg pi R cInit k).length = R := by
      rw [length_mlsagLoop, hlen]
    have hadd : pi + (k + 1) = pi + 1 + k := by omega
    simp only [mlsagLoop, hadd]
    have hidx : ((pi + 1 + k) % R + 1) % R = (pi + 1 + (k + 1)) % R := by
      rw [mod_succ_mod, Nat.add_assoc (pi + 1) k 1]
    rw [hidx]
    rcases Nat.eq_or_lt_of_le hj with hjk | hjk
    · subst hjk
      rw [getD_set_self _ _ _ _ (by rw [hlenk]; exact Nat.mod_lt _ hR)]
      rw [ih hk k le_rfl]
      rfl
    · have hj' : j ≤ k := by omega
      rw [getD_set_ne]
      · exact ih hk j hj'
      · exact mod_ne_mod _ _ _ (by omega) (by omega)

/-! ### The verifier's replay of the chain -/

theorem ringChainGo_ok {P : Type} [AddCommGroup P] (gen : P) (Hp : P → P)
    (cHash : List ℕ → P → P → P → Scalar) (msg : List ℕ) (ki : P) (R : ℕ)
    (rm : List (Scalar × Scalar)) (rg : List (P × P)) (cf : ℕ → Scalar)
    (hR : 0 < R) (hrm : R ≤ rm.length)
    (hcoh : ∀ n, n < R → stepC gen Hp cHash msg ki rm rg (cf n) n = cf ((n + 1) % R)) :
    ∀ (fuel n : ℕ) (c : List Scalar), n + fuel = R → c.length = R →
      c.getD 0 0 = cf 0 → (0 < fuel → c.getD n 0 = cf n) →
      ∃ cOut, ringChainGo gen Hp cHash msg ki R rm rg fuel n c = .ok cOut ∧
        cOut.getD 0 0 = cf 0 := by
  intro fuel
  induction fuel with
  | zero =>
    intro n c _ _ h3 _
    exact ⟨c, rfl, h3⟩
  | succ fuel ih =>
    intro n c h1 h2 h3 h4
    have hn : n < R := by omega
    have hget : rm.get? n = some (rm.getD n (0, 0)) :=
      get?_of_lt_length (by omega) (0, 0)
    have hstep : stepC gen Hp cHash msg ki rm rg (c.getD n 0) n = cf ((n + 1) % R) := by
      rw [h4 (Nat.succ_pos _), hcoh n hn]
    simp only [ringChainGo, hget, hstep]
    apply ih (n + 1) _ (by omega) (by rw [List.length_set]; exact h2)
    · by_cases hz : (n + 1) % R = 0
      · rw [hz, getD_set_self _ _ _ _ (by omega)]
      · rw [getD_set_ne _ _ _ _ _ hz]
        exact h3
    · intro hf
      have hn1 : n + 1 < R := by omega
      rw [Nat.mod_eq_of_lt hn1, getD_set_self _ _ _ _ (by omega)]

/-! ### Closure of a single MLSAG produced with the true openings -/

theorem stepC_congr_rv {P : Type} [AddCommGroup P] (gen : P) (Hp : P → P)
    (cHash : List ℕ → P → P → P → Scalar) (msg : List ℕ) (ki : P)
    (rv1 rv2 : List (Scalar × Scalar)) (rg : List (P × P)) (c : Scalar) (n : ℕ)
    (h : rv1.getD n (0, 0) = rv2.getD n (0, 0)) :
    stepC gen Hp cHash msg ki rv1 rg c n = stepC gen Hp cHash msg ki rv2 rg c n := by
  simp only [stepC, h]

theorem mlsag_coherence (gen : Scalar) (Hp : Scalar → Scalar)
    (cHash : List ℕ → Scalar → Scalar → Scalar → Scalar)
    (msg : List ℕ) (input : TrueInput) (rpc : RevealedCommitment)
    (pi : ℕ) (ring : List (Scalar × Scalar)) (rs : ℕ → Scalar) (i : ℕ)
    (hpi : pi < ring.length)
    (hr1 : (ring.getD pi (0, 0)).1 = smulS input.secret_key gen)
    (hr2 : (ring.getD pi (0, 0)).2 =
      smulS (input.revealed_commitment.blinding - rpc.blinding) gen) :
    ∀ n, n < ring.length →
      stepC gen Hp cHash msg (input.key_image gen Hp)
        (mlsagRF gen Hp cHash msg input rpc pi ring rs i) ring
        ((mlsagCF gen Hp cHash msg input pi ring rs i).getD n 0) n =
      (mlsagCF gen Hp cHash msg input pi ring rs i).getD ((n + 1) % ring.length) 0 := by
  intro n hn
  set R := ring.length with hRdef
  have hR : 0 < R := by omega
  have hlenInit : (mlsagCInit gen Hp cHash msg ring pi R (rs i) (rs (i + 1))).length = R := by
    rw [mlsagCInit, List.length_set, List.length_replicate]
  have hlenR0 : (mlsagR0 rs i R).length = R := by
    rw [mlsagR0, List.length_map, List.length_range]
  have hA : ∀ j, j ≤ R - 1 →
      (mlsagCF gen Hp cHash msg input pi ring rs i).getD ((pi + 1 + j) % R) 0 =
        chainVal gen Hp cHash msg (input.key_image gen Hp) (mlsagR0 rs i R) ring pi R
          ((mlsagCInit gen Hp cHash msg ring pi R (rs i) (rs (i + 1))).getD ((pi + 1) % R) 0) j := by
    intro j hj
    exact mlsagLoop_getD gen Hp cHash msg (input.key_image gen Hp) (mlsagR0 rs i R)
      ring pi R _ hR hlenInit (R - 1) le_rfl j hj
  have hinit : (mlsagCInit gen Hp cHash msg ring pi R (rs i) (rs (i + 1))).getD ((pi + 1) % R) 0 =
      cHash msg (smulS (rs i) gen) (smulS (rs (i + 1)) gen)
        (smulS (rs i) (Hp (ring.getD pi (0, 0)).1)) := by
    rw [mlsagCInit]
    exact getD_set_self _ _ _ _ (by rw [List.length_replicate]; exact Nat.mod_lt _ hR)
  obtain ⟨j, hj, hjn⟩ := exists_offset pi n R hR hn
  rcases Nat.lt_or_ge j (R - 1) with hjlt | hjge
  · -- a non-secret row: the verifier recomputes the very hash the signer wrote
    have hnpi : n ≠ pi := by
      rw [← hjn]
      have := mod_ne_mod pi (pi + 1 + j) R (by omega) (by omega)
      rw [Nat.mod_eq_of_lt hpi] at this
      exact this
    have hrv : (mlsagRF gen Hp cHash msg input rpc pi ring rs i).getD n (0, 0) =
        (mlsagR0 rs i R).getD n (0, 0) := by
      rw [mlsagRF]
      exact getD_set_ne _ _ _ _ _ (fun h => hnpi (h.symm))
    rw [stepC_congr_rv gen Hp cHash msg _ _ _ ring _ n hrv]
    rw [← hjn]
    rw [hA j (by omega)]
    have hidx : ((pi + 1 + j) % R + 1) % R = (pi + 1 + (j + 1)) % R := by
      rw [mod_succ_mod, Nat.add_assoc (pi + 1) j 1]
    rw [hidx, hA (j + 1) (by omega)]
    rfl
  · -- the secret row: algebraic closure back to the initialization
    have hjeq : j = R - 1 := by omega
    have hnpi : n = pi := by
      rw [← hjn, hjeq]
      have : pi + 1 + (R - 1) = pi + R := by omega
      rw [this, Nat.add_mod_right, Nat.mod_eq_of_lt hpi]
    subst hnpi
    have hrF : (mlsagRF gen Hp cHash msg input rpc n ring rs i).getD n (0, 0) =
        (rs i - (mlsagCF gen Hp cHash msg input n ring rs i).getD n 0 * input.secret_key,
         rs (i + 1) - (mlsagCF gen Hp cHash msg input n ring rs i).getD n 0 *
           (input.revealed_commitment.blinding - rpc.blinding)) := by
      rw [mlsagRF]
      exact getD_set_self _ _ _ _ (by rw [hlenR0]; exact hn)
    have hki : input.key_image gen Hp =
        smulS input.secret_key (Hp ((ring.getD n (0, 0)).1)) := by
      rw [hr1]
      rfl
    have hgoal : stepC gen Hp cHash msg (input.key_image gen Hp)
        (mlsagRF gen Hp cHash msg input rpc n ring rs i) ring
        ((mlsagCF gen Hp cHash msg input n ring rs i).getD n 0) n =
        cHash msg (smulS (rs i) gen) (smulS (rs (i + 1)) gen)
          (smulS (rs i) (Hp (ring.getD n (0, 0)).1)) := by
      rw [stepC, hrF, hki, hr1, hr2]
      simp only [smulS_scalar]
      congr 1 <;> ring
    rw [hgoal]
    have h0 : (n + 1 + 0) % R = (n + 1) % R := by rfl
    have := hA 0 (by omega)
    rw [h0] at this
    rw [this, hinit]
    rfl

/-! ### `ringct_mlsag_sign` succeeds on true openings and verifies -/

theorem mlsagSanity_true (gen : Scalar) (Hp : Scalar → Scalar)
    (ring : List (Scalar × Scalar)) (pi : ℕ) (sks alpha rpi : Scalar × Scalar)
    (cpi : Scalar) (ki : Scalar)
    (hr1 : (ring.getD pi (0, 0)).1 = smulS sks.1 gen)
    (hr2 : (ring.getD pi (0, 0)).2 = smulS sks.2 gen)
    (hki : ki = smulS sks.1 (Hp ((ring.getD pi (0, 0)).1)))
    (hrpi : rpi = (alpha.1 - cpi * sks.1, alpha.2 - cpi * sks.2)) :
    mlsagSanity gen Hp ring pi sks alpha rpi cpi ki = true := by
  subst hki hrpi
  simp only [mlsagSanity, Bool.and_eq_true, decide_eq_true_eq, hr1, hr2, smulS_scalar]
  refine ⟨⟨⟨⟨⟨⟨⟨⟨⟨⟨⟨⟨?_, ?_⟩, ?_⟩, ?_⟩, ?_⟩, ?_⟩, ?_⟩, ?_⟩, ?_⟩, ?_⟩, ?_⟩, ?_⟩, ?_⟩ <;>
    ring_nf

theorem mlsag_sign_ok (gen hGen : Scalar) (Hp : Scalar → Scalar)
    (cHash : List ℕ → Scalar → Scalar → Scalar → Scalar)
    (msg : List ℕ) (input : TrueInput) (rpc : RevealedCommitment)
    (pi : ℕ) (ring : List (Scalar × Scalar)) (rs : ℕ → Scalar) (i : ℕ)
    (hpi : pi < ring.length)
    (hr1 : (ring.getD pi (0, 0)).1 = smulS input.secret_key gen)
    (hr2 : (ring.getD pi (0, 0)).2 =
      smulS (input.revealed_commitment.blinding - rpc.blinding) gen) :
    ∃ msig : MlsagSignature Scalar,
      ringct_mlsag_sign gen hGen Hp cHash msg input rpc pi ring rs i =
        (.ok msig, i + 2 + 2 * ring.length) ∧
      msig.c0 = (mlsagCF gen Hp cHash msg input pi ring rs i).getD 0 0 ∧
      msig.r = mlsagRF gen Hp cHash msg input rpc pi ring rs i ∧
      msig.key_image = input.key_image gen Hp ∧
      msig.ring = ring ∧
      MlsagGood gen Hp cHash msg msig := by
  have hR : 0 < ring.length := by omega
  have hlenR0 : (mlsagR0 rs i ring.length).length = ring.length := by
    rw [mlsagR0, List.length_map, List.length_range]
  have hcommit : (defaultCommitter gen hGen).commit 0
      (input.revealed_commitment.blinding - rpc.blinding) = (ring.getD pi (0, 0)).2 := by
    rw [hr2, PedersenCommitter.commit, defaultCommitter, smulS_zero_left, zero_add]
  have hrpi : (mlsagRF gen Hp cHash msg input rpc pi ring rs i).getD pi (0, 0) =
      ((rs i, rs (i + 1)).1 -
        (mlsagCF gen Hp cHash msg input pi ring rs i).getD pi 0 *
          (input.secret_key, input.revealed_commitment.blinding - rpc.blinding).1,
       (rs i, rs (i + 1)).2 -
        (mlsagCF gen Hp cHash msg input pi ring rs i).getD pi 0 *
          (input.secret_key, input.revealed_commitment.blinding - rpc.blinding).2) := by
    rw [mlsagRF]
    exact getD_set_self _ _ _ _ (by rw [hlenR0]; exact hpi)
  have hki : input.key_image gen Hp =
      smulS (input.secret_key, input.revealed_commitment.blinding - rpc.blinding).1
        (Hp ((ring.getD pi (0, 0)).1)) := by
    rw [hr1]
    rfl
  have hsan := mlsagSanity_true gen Hp ring pi
    (input.secret_key, input.revealed_commitment.blinding - rpc.blinding)
    (rs i, rs (i + 1))
    ((mlsagRF gen Hp cHash msg input rpc pi ring rs i).getD pi (0, 0))
    ((mlsagCF gen Hp cHash msg input pi ring rs i).getD pi 0)
    (input.key_image gen Hp) hr1 hr2 hki hrpi
  refine ⟨⟨(mlsagCF gen Hp cHash msg input pi ring rs i).getD 0 0,
    mlsagRF gen Hp cHash msg input rpc pi ring rs i,
    input.key_image gen Hp, ring⟩, ?_, rfl, rfl, rfl, rfl, ?_⟩
  · simp only [ringct_mlsag_sign, if_pos hcommit, if_pos hsan]
  · refine ⟨List.length_pos.mp hR, ?_, ?_⟩
    · simp only [mlsagRF, List.length_set, hlenR0]
    · have hchain := ringChainGo_ok gen Hp cHash msg (input.key_image gen Hp)
        ring.length (mlsagRF gen Hp cHash msg input rpc pi ring rs i) ring
        (fun n => (mlsagCF gen Hp cHash msg input pi ring rs i).getD n 0) hR
        (by rw [mlsagRF, List.length_set, hlenR0])
        (mlsag_coherence gen Hp cHash msg input rpc pi ring rs i hpi hr1 hr2)
        ring.length 0
        ((List.replicate ring.length (0 : Scalar)).set 0
          ((mlsagCF gen Hp cHash msg input pi ring rs i).getD 0 0))
        (by omega)
        (by rw [List.length_set, List.length_replicate])
        (getD_set_self _ _ _ _ (by rw [List.length_replicate]; exact hR))
        (fun _ => getD_set_self _ _ _ _ (by rw [List.length_replicate]; exact hR))
      obtain ⟨cOut, heq, hval⟩ := hchain
      exact ⟨cOut, heq, hval.symm⟩

/-! ### Ring-matrix assembly and the balance identity in `RingCT::sign` -/

theorem length_insertAt {α : Type} :
    ∀ (n : ℕ) (a : α) (l : List α), n ≤ l.length →
      (insertAt n a l).length = l.length + 1 := by
  intro n
  induction n with
  | zero => intro a l _; rfl
  | succ n ih =>
    intro a l h
    cases l with
    | nil => simp at h
    | cons b t => simpa [insertAt] using ih a t (by simpa using h)

theorem getD_insertAt_self {α : Type} :
    ∀ (n : ℕ) (a : α) (l : List α) (d : α), n ≤ l.length →
      (insertAt n a l).getD n d = a := by
  intro n
  induction n with
  | zero => intro a l d _; rfl
  | succ n ih =>
    intro a l d h
    cases l with
    | nil => simp at h
    | cons b t => simpa [insertAt] using ih a t d (by simpa using h)

theorem defaultCommitter_G {P : Type} (gen hGen : P) :
    (defaultCommitter gen hGen).G = gen := rfl

theorem defaultCommitter_H {P : Type} (gen hGen : P) :
    (defaultCommitter gen hGen).H = hGen := rfl

theorem sum_map_from_reveal (gen hGen : Scalar) (l : List RevealedCommitment) :
    (l.map (PedersenCommitter.from_reveal (defaultCommitter gen hGen))).sum =
      (l.map RevealedCommitment.value).sum * hGen +
        (l.map RevealedCommitment.blinding).sum * gen := by
  induction l with
  | nil => simp
  | cons a t ih =>
    simp only [List.map_cons, List.sum_cons, ih, PedersenCommitter.from_reveal,
      PedersenCommitter.commit, defaultCommitter_G, defaultCommitter_H, smulS_scalar]
    ring

theorem sum_amount_take_last {P : Type} (outputs : List (Output P)) (lastOut : Output P)
    (hlast : outputs.getLast? = some lastOut) :
    ((outputs.take (outputs.length - 1)).map Output.amount).sum + lastOut.amount =
      (outputs.map Output.amount).sum := by
  have hne : outputs ≠ [] := by
    intro h
    rw [h] at hlast
    simp at hlast
  have h1 : outputs.take (outputs.length - 1) = outputs.dropLast :=
    (List.dropLast_eq_take outputs).symm
  have h2 : outputs.dropLast ++ [outputs.getLast hne] = outputs :=
    List.dropLast_append_getLast hne
  have h3 : outputs.getLast hne = lastOut := by
    have := List.getLast?_eq_getLast outputs hne
    rw [this] at hlast
    exact Option.some.inj hlast
  conv_rhs => rw [← h2]
  rw [List.map_append, List.sum_append, h1, h3]
  simp

theorem sign_balance_eq (gen hGen : Scalar) (rct : RingCT Scalar) (rs : ℕ → Scalar)
    (lastOut : Output Scalar) (hlast : rct.outputs.getLast? = some lastOut)
    (hbal : (rct.true_inputs.map (fun inp => inp.revealed_commitment.value)).sum =
      (rct.outputs.map Output.amount).sum) :
    ((mapWithRng rs (fun (inp : TrueInput) b =>
        (⟨inp.revealed_commitment.value, b⟩ : RevealedCommitment)) rct.true_inputs 0).map
      (PedersenCommitter.from_reveal (defaultCommitter gen hGen))).sum =
    (((mapWithRng rs (fun (o : Output Scalar) b => (⟨o.amount, b⟩ : RevealedCommitment))
          (rct.outputs.take (rct.outputs.length - 1)) rct.true_inputs.length)
        ++ [(⟨lastOut.amount,
          ((mapWithRng rs (fun (inp : TrueInput) b =>
              (⟨inp.revealed_commitment.value, b⟩ : RevealedCommitment))
              rct.true_inputs 0).map RevealedCommitment.blinding).sum -
          ((mapWithRng rs (fun (o : Output Scalar) b => (⟨o.amount, b⟩ : RevealedCommitment))
              (rct.outputs.take (rct.outputs.length - 1)) rct.true_inputs.length).map
            RevealedCommitment.blinding).sum⟩ : RevealedCommitment)]).map
      (PedersenCommitter.from_reveal (defaultCommitter gen hGen))).sum := by
  rw [sum_map_from_reveal, List.map_append, List.sum_append, sum_map_from_reveal]
  rw [map_mapWithRng rs _ RevealedCommitment.value
    (fun inp => inp.revealed_commitment.value) (fun _ _ => rfl)]
  rw [map_mapWithRng rs _ RevealedCommitment.value Output.amount (fun _ _ => rfl)]
  rw [hbal, ← sum_amount_take_last rct.outputs lastOut hlast]
  simp only [List.map_cons, List.map_nil, List.sum_cons, List.sum_nil,
    PedersenCommitter.from_reveal, PedersenCommitter.commit, defaultCommitter_G,
    defaultCommitter_H, smulS_scalar]
  ring

/-! ### The per-input MLSAG loop of `RingCT::sign` -/

theorem signMlsags_ok (gen hGen : Scalar) (Hp : Scalar → Scalar)
    (cHash : List ℕ → Scalar → Scalar → Scalar → Scalar)
    (msg : List ℕ) (pi R : ℕ) (rs : ℕ → Scalar)
    (pks cms : List (List Scalar)) (pseudos : List Scalar)
    (pseudoRCs : List RevealedCommitment) (hpi : pi < R) :
    ∀ (rem : List TrueInput) (m i : ℕ),
      (∀ k inp, rem.get? k = some inp →
        (pks.getD pi []).getD (m + k) 0 = smulS inp.secret_key gen ∧
        (cms.getD pi []).getD (m + k) 0 - pseudos.getD (m + k) 0 =
          smulS (inp.revealed_commitment.blinding -
            (pseudoRCs.getD (m + k) ⟨0, 0⟩).blinding) gen) →
      ∃ msigs iE,
        signMlsags gen hGen Hp cHash msg pi R rs pks cms pseudos pseudoRCs rem m i =
          (.ok msigs, iE) ∧
        msigs.map MlsagSignature.key_image = rem.map (TrueInput.key_image gen Hp) ∧
        ∀ ms ∈ msigs, MlsagGood gen Hp cHash msg ms := by
  intro rem
  induction rem with
  | nil =>
    intro m i _
    exact ⟨[], i, rfl, rfl, by simp⟩
  | cons inp rest ih =>
    intro m i hco
    obtain ⟨h1, h2⟩ := hco 0 inp rfl
    rw [Nat.add_zero] at h1 h2
    have hring : ((List.range R).map fun n =>
        (((pks.getD n []).getD m 0 : Scalar),
          (cms.getD n []).getD m 0 - pseudos.getD m 0)).getD pi (0, 0) =
        ((pks.getD pi []).getD m 0, (cms.getD pi []).getD m 0 - pseudos.getD m 0) :=
      getD_map_range _ R pi (0, 0) hpi
    have hlenring : ((List.range R).map fun n =>
        (((pks.getD n []).getD m 0 : Scalar),
          (cms.getD n []).getD m 0 - pseudos.getD m 0)).length = R := by
      rw [List.length_map, List.length_range]
    obtain ⟨msig, heq, _, _, hkim, _, hgood⟩ := mlsag_sign_ok gen hGen Hp cHash msg inp
      (pseudoRCs.getD m ⟨0, 0⟩) pi _ rs i (by rw [hlenring]; exact hpi)
      (by rw [hring]; exact h1) (by rw [hring]; exact h2)
    rw [hlenring] at heq
    obtain ⟨msigs, iE, heq2, hmap, hgoods⟩ := ih (m + 1) (i + 2 + 2 * R) fun k inp2 hk => by
      have := hco (k + 1) inp2 hk
      rwa [show m + 1 + k = m + (k + 1) by omega]
    refine ⟨msig :: msigs, iE, ?_, ?_, ?_⟩
    · simp only [signMlsags, heq, heq2]
    · simp only [List.map_cons, hmap, hkim]
    · intro ms hms
      rcases List.mem_cons.mp hms with hms | hms
      · subst hms
        exact hgood
      · exact hgoods ms hms

/-! ### The per-ring loop of `verify` replays every honest MLSAG -/

theorem verifyRings_ok (gen : Scalar) (Hp : Scalar → Scalar)
    (cHash : List ℕ → Scalar → Scalar → Scalar → Scalar) (msg : List ℕ)
    (allMs : List (MlsagSignature Scalar)) :
    ∀ (post pre : List (MlsagSignature Scalar)), allMs = pre ++ post →
      (∀ ms ∈ post, MlsagGood gen Hp cHash msg ms) →
      verifyRings gen Hp cHash msg
        ⟨allMs.map MlsagSignature.c0, allMs.map MlsagSignature.r,
          allMs.map MlsagSignature.key_image⟩
        (post.map MlsagSignature.ring) pre.length = .ok true := by
  intro post
  induction post with
  | nil => intro pre _ _; rfl
  | cons ms rest ih =>
    intro pre hall hgood
    have hgetAll : allMs.get? pre.length = some ms := by
      rw [hall, List.get?_append_right (le_refl _)]
      simp
    have hc0 : (allMs.map MlsagSignature.c0).get? pre.length = some ms.c0 := by
      rw [List.get?_map, hgetAll]
      rfl
    have hrm : (allMs.map MlsagSignature.r).get? pre.length = some ms.r := by
      rw [List.get?_map, hgetAll]
      rfl
    have hkim : (allMs.map MlsagSignature.key_image).getD pre.length 0 = ms.key_image :=
      getD_of_get? (by rw [List.get?_map, hgetAll]; rfl) 0
    obtain ⟨hne, _, cOut, hchain, hcmp⟩ := hgood ms (List.mem_cons_self _ _)
    have hlen0 : ¬ ms.ring.length = 0 := fun h => hne (List.length_eq_zero.mp h)
    have hrec := ih (pre ++ [ms]) (by rw [hall, List.append_assoc]; rfl)
      (fun m2 hm2 => hgood m2 (List.mem_cons_of_mem _ hm2))
    rw [List.length_append, List.length_singleton] at hrec
    simp only [List.map_cons, verifyRings, hc0, hrm, hkim, if_neg hlen0, hchain,
      if_pos hcmp]
    exact hrec

/-! ### Result-shape lemmas for `ringct_mlsag_sign` and the MLSAG loop -/

theorem mlsag_result_ok_shape {P : Type} [AddCommGroup P] [DecidableEq P]
    (gen hGen : P) (Hp : P → P) (cHash : List ℕ → P → P → P → Scalar)
    (msg : List ℕ) (input : TrueInput) (rpc : RevealedCommitment)
    (pi : ℕ) (ring : List (P × P)) (rs : ℕ → Scalar) (i : ℕ)
    (ms : MlsagSignature P) (i2 : ℕ)
    (h : ringct_mlsag_sign gen hGen Hp cHash msg input rpc pi ring rs i = (.ok ms, i2)) :
    ms.key_image = input.key_image gen Hp ∧ ms.ring = ring := by
  rw [ringct_mlsag_sign] at h
  split at h
  · split at h
    · simp only [Prod.mk.injEq, Except.ok.injEq] at h
      rw [← h.1]
      exact ⟨rfl, rfl⟩
    · simp at h
  · simp at h

theorem mlsag_result_error_shape {P : Type} [AddCommGroup P] [DecidableEq P]
    (gen hGen : P) (Hp : P → P) (cHash : List ℕ → P → P → P → Scalar)
    (msg : List ℕ) (input : TrueInput) (rpc : RevealedCommitment)
    (pi : ℕ) (ring : List (P × P)) (rs : ℕ → Scalar) (i : ℕ)
    (e : SignError) (i2 : ℕ)
    (h : ringct_mlsag_sign gen hGen Hp cHash msg input rpc pi ring rs i = (.error e, i2)) :
    e = SignError.mlsagAssert ∨ e = SignError.sanityAssert := by
  rw [ringct_mlsag_sign] at h
  split at h
  · split at h
    · simp at h
    · simp only [Prod.mk.injEq, Except.error.injEq] at h
      exact Or.inr h.1.symm
  · simp only [Prod.mk.injEq, Except.error.injEq] at h
    exact Or.inl h.1.symm

theorem signMlsags_key_images {P : Type} [AddCommGroup P] [DecidableEq P]
    (gen hGen : P) (Hp : P → P) (cHash : List ℕ → P → P → P → Scalar)
    (msg : List ℕ) (pi R : ℕ) (rs : ℕ → Scalar)
    (pks cms : List (List P)) (pseudos : List P)
    (pseudoRCs : List RevealedCommitment) :
    ∀ (rem : List TrueInput) (m i : ℕ) (msigs : List (MlsagSignature P)) (iE : ℕ),
      signMlsags gen hGen Hp cHash msg pi R rs pks cms pseudos pseudoRCs rem m i =
        (.ok msigs, iE) →
      msigs.map MlsagSignature.key_image = rem.map (TrueInput.key_image gen Hp) := by
  intro rem
  induction rem with
  | nil =>
    intro m i msigs iE h
    have h1 : ((Except.ok [] : Except SignError (List (MlsagSignature P))), i) =
        ((Except.ok msigs : Except SignError (List (MlsagSignature P))), iE) := h
    simp only [Prod.mk.injEq, Except.ok.injEq] at h1
    rw [← h1.1]
    rfl
  | cons inp rest ih =>
    intro m i msigs iE h
    simp only [signMlsags] at h
    split at h
    · simp at h
    · rename_i msig i2 heq
      split at h
      · simp at h
      · rename_i msigs2 i3 heq2
        simp only [Prod.mk.injEq, Except.ok.injEq] at h
        rw [← h.1]
        simp only [List.map_cons]
        rw [(mlsag_result_ok_shape gen hGen Hp cHash msg inp _ pi _ rs i msig i2 heq).1,
          ih (m + 1) i2 msigs2 i3 heq2]

theorem signMlsags_error_shape {P : Type} [AddCommGroup P] [DecidableEq P]
    (gen hGen : P) (Hp : P → P) (cHash : List ℕ → P → P → P → Scalar)
    (msg : List ℕ) (pi R : ℕ) (rs : ℕ → Scalar)
    (pks cms : List (List P)) (pseudos : List P)
    (pseudoRCs : List RevealedCommitment) :
    ∀ (rem : List TrueInput) (m i : ℕ) (e : SignError) (iE : ℕ),
      signMlsags gen hGen Hp cHash msg pi R rs pks cms pseudos pseudoRCs rem m i =
        (.error e, iE) →
      e = SignError.mlsagAssert ∨ e = SignError.sanityAssert := by
  intro rem
  induction rem with
  | nil =>
    intro m i e iE h
    have h1 : ((Except.ok [] : Except SignError (List (MlsagSignature P))), i) =
        ((Except.error e : Except SignError (List (MlsagSignature P))), iE) := h
    simp at h1
  | cons inp rest ih =>
    intro m i e iE h
    simp only [signMlsags] at h
    split at h
    · rename_i e2 i2 heq
      simp only [Prod.mk.injEq, Except.error.injEq] at h
      rw [← h.1]
      exact mlsag_result_error_shape gen hGen Hp cHash msg inp _ pi _ rs i e2 i2 heq
    · rename_i msig i2 heq
      split at h
      · rename_i e2 i3 heq2
        simp only [Prod.mk.injEq, Except.error.injEq] at h
        rw [← h.1]
        exact ih (m + 1) i2 e2 i3 heq2
      · simp at h

theorem lt_length_of_get? {α : Type} {l : List α} {n : ℕ} {a : α}
    (h : l.get? n = some a) : n < l.length := by
  by_contra h2
  rw [List.get?_eq_getElem?, List.getElem?_eq_none (by omega)] at h
  cases h

/-! ### Claim theorems -/

/-- C1: Completeness.  For every well-formed signing instance (`M ≥ 1` true
inputs, every decoy row of width `M`, `K ≥ 1` outputs whose amounts sum to
the sum of the true input values), every message, every randomness stream
(`piWord` plus the scalar stream `rs`), and every choice of the external
hash functions, `RingCT::sign` succeeds and `verify` accepts the produced
signature and rings on the same message. -/
theorem ringct_sign_then_verify_true (gen hGen : Scalar) (Hp : Scalar → Scalar)
    (cHash : List ℕ → Scalar → Scalar → Scalar → Scalar) (msg : List ℕ)
    (rct : RingCT Scalar) (piWord : ℕ) (rs : ℕ → Scalar)
    (hM : rct.true_inputs ≠ [])
    (hrect : ∀ row ∈ rct.decoy_inputs, row.length = rct.true_inputs.length)
    (hK : rct.outputs ≠ [])
    (hbal : (rct.true_inputs.map (fun inp => inp.revealed_commitment.value)).sum =
      (rct.outputs.map Output.amount).sum) :
    ∃ sig rings n,
      RingCT.sign gen hGen Hp cHash msg rct piWord rs = (.ok (sig, rings), n) ∧
      verify gen Hp cHash (fun _ => true) msg sig rings = .ok true := by
  have hall : rct.decoy_inputs.all
      (fun row => decide (row.length = rct.true_inputs.length)) = true :=
    List.all_eq_true.mpr fun row hr => decide_eq_true (hrect row hr)
  have hlast : rct.outputs.getLast? = some (rct.outputs.getLast hK) :=
    List.getLast?_eq_getLast rct.outputs hK
  have hpi : piWord % (rct.decoy_inputs.length + 1) < rct.decoy_inputs.length + 1 :=
    Nat.mod_lt _ (Nat.succ_pos _)
  have hrowlen : (rct.decoy_inputs.map fun row => row.map DecoyInput.public_key).length =
      rct.decoy_inputs.length := List.length_map _ _
  have hrowlen2 : (rct.decoy_inputs.map fun row => row.map DecoyInput.commitment).length =
      rct.decoy_inputs.length := List.length_map _ _
  have hpksrow : (insertAt (piWord % (rct.decoy_inputs.length + 1))
      (rct.true_inputs.map (TrueInput.public_key gen))
      (rct.decoy_inputs.map fun row => row.map DecoyInput.public_key)).getD
        (piWord % (rct.decoy_inputs.length + 1)) [] =
      rct.true_inputs.map (TrueInput.public_key gen) :=
    getD_insertAt_self _ _ _ [] (by rw [hrowlen]; omega)
  have hcmsrow : (insertAt (piWord % (rct.decoy_inputs.length + 1))
      (rct.true_inputs.map fun inp =>
        (defaultCommitter gen hGen).from_reveal inp.revealed_commitment)
      (rct.decoy_inputs.map fun row => row.map DecoyInput.commitment)).getD
        (piWord % (rct.decoy_inputs.length + 1)) [] =
      rct.true_inputs.map fun inp =>
        (defaultCommitter gen hGen).from_reveal inp.revealed_commitment :=
    getD_insertAt_self _ _ _ [] (by rw [hrowlen2]; omega)
  have hco : ∀ k inp, rct.true_inputs.get? k = some inp →
      ((insertAt (piWord % (rct.decoy_inputs.length + 1))
        (rct.true_inputs.map (TrueInput.public_key gen))
        (rct.decoy_inputs.map fun row => row.map DecoyInput.public_key)).getD
          (piWord % (rct.decoy_inputs.length + 1)) []).getD (0 + k) 0 =
        smulS inp.secret_key gen ∧
      ((insertAt (piWord % (rct.decoy_inputs.length + 1))
        (rct.true_inputs.map fun inp =>
          (defaultCommitter gen hGen).from_reveal inp.revealed_commitment)
        (rct.decoy_inputs.map fun row => row.map DecoyInput.commitment)).getD
          (piWord % (rct.decoy_inputs.length + 1)) []).getD (0 + k) 0 -
        ((mapWithRng rs (fun inp b =>
            (⟨inp.revealed_commitment.value, b⟩ : RevealedCommitment))
          rct.true_inputs 0).map
            ((defaultCommitter gen hGen).from_reveal)).getD (0 + k) 0 =
        smulS (inp.revealed_commitment.blinding -
          ((mapWithRng rs (fun inp b =>
              (⟨inp.revealed_commitment.value, b⟩ : RevealedCommitment))
            rct.true_inputs 0).getD (0 + k) ⟨0, 0⟩).blinding) gen := by
    intro k inp hk
    have hkM : k < rct.true_inputs.length := lt_length_of_get? hk
    have hgetk : rct.true_inputs.getD k ⟨0, ⟨0, 0⟩⟩ = inp := getD_of_get? hk _
    rw [Nat.zero_add] at *
    constructor
    · rw [hpksrow, getD_map_lt _ _ k 0 ⟨0, ⟨0, 0⟩⟩ hkM, hgetk]
      rfl
    · rw [hcmsrow, getD_map_lt _ _ k 0 ⟨0, ⟨0, 0⟩⟩ hkM, hgetk]
      rw [getD_map_lt _ _ k 0 ⟨0, 0⟩ (by rw [length_mapWithRng]; exact hkM)]
      rw [getD_mapWithRng rs (fun (inp : TrueInput) b =>
          (⟨inp.revealed_commitment.value, b⟩ : RevealedCommitment))
        rct.true_inputs 0 k (⟨0, 0⟩ : RevealedCommitment) ⟨0, ⟨0, 0⟩⟩ hkM, hgetk]
      simp only [PedersenCommitter.from_reveal, PedersenCommitter.commit,
        defaultCommitter_G, defaultCommitter_H, smulS_scalar, Nat.zero_add]
      ring
  obtain ⟨msigs, iE, hsigneq, _, hgoods⟩ :=
    signMlsags_ok gen hGen Hp cHash msg (piWord % (rct.decoy_inputs.length + 1))
      (rct.decoy_inputs.length + 1) rs
      (insertAt (piWord % (rct.decoy_inputs.length + 1))
        (rct.true_inputs.map (TrueInput.public_key gen))
        (rct.decoy_inputs.map fun row => row.map DecoyInput.public_key))
      (insertAt (piWord % (rct.decoy_inputs.length + 1))
        (rct.true_inputs.map fun inp =>
          (defaultCommitter gen hGen).from_reveal inp.revealed_commitment)
        (rct.decoy_inputs.map fun row => row.map DecoyInput.commitment))
      ((mapWithRng rs (fun inp b =>
          (⟨inp.revealed_commitment.value, b⟩ : RevealedCommitment))
        rct.true_inputs 0).map ((defaultCommitter gen hGen).from_reveal))
      (mapWithRng rs (fun inp b =>
          (⟨inp.revealed_commitment.value, b⟩ : RevealedCommitment))
        rct.true_inputs 0)
      hpi rct.true_inputs 0
      (rct.true_inputs.length + (rct.outputs.length - 1)) hco
  refine ⟨⟨msigs.map MlsagSignature.c0, msigs.map MlsagSignature.r,
    msigs.map MlsagSignature.key_image⟩, msigs.map MlsagSignature.ring, iE, ?_, ?_⟩
  · simp only [RingCT.sign, if_pos hall, hlast,
      if_pos (sign_balance_eq gen hGen rct rs (rct.outputs.getLast hK) hlast hbal),
      hsigneq]
  · simp only [verify,
      if_pos (List.all_eq_true.mpr (fun (x : Scalar) _ => rfl)),
      if_pos (by rw [List.length_map, List.length_map] :
        (msigs.map MlsagSignature.key_image).length = (msigs.map MlsagSignature.ring).length)]
    exact verifyRings_ok gen Hp cHash msg msigs msigs [] rfl hgoods

/-- C1 witness: a concrete well-formed instance (`M = 1`, `R = 1`, `K = 1`,
value `0` against amount `0`) signs and verifies. -/
theorem ringct_sign_then_verify_true_witness :
    ∃ sig rings n,
      RingCT.sign (1 : Scalar) 1 (fun _ => 0) (fun _ _ _ _ => 0) []
        ⟨[⟨1, ⟨0, 1⟩⟩], [], [⟨0, 0⟩]⟩ 0 (fun _ => 0) = (.ok (sig, rings), n) ∧
      verify (1 : Scalar) (fun _ => 0) (fun _ _ _ _ => 0) (fun _ => true) []
        sig rings = .ok true :=
  ringct_sign_then_verify_true 1 1 (fun _ => 0) (fun _ _ _ _ => 0) []
    ⟨[⟨1, ⟨0, 1⟩⟩], [], [⟨0, 0⟩]⟩ 0 (fun _ => 0)
    (by decide) (by simp) (by decide) (by decide)

/-- C2 counterexample: with input value `1`, output amount `2` and all
blindings zero, the pseudo-commitment sum differs from the output
commitment sum, so the identity asserted by `RingCT::sign` fails (the
embedded `assert_eq!` fires as `balanceAssert`).  The claim as stated
(the identity holds for every choice of values and amounts) is false. -/
theorem balance_identity_fails_unbalanced :
    RingCT.sign (1 : Scalar) 1 (fun _ => 0) (fun _ _ _ _ => 0) []
      ⟨[⟨0, ⟨1, 0⟩⟩], [], [⟨0, 2⟩]⟩ 0 (fun _ => 0) = (.error .balanceAssert, 1) := by
  decide

/-- C2 amended: the balance identity `∑ C'_m = ∑ C_out,k` closed by the
last output's blinding holds — equivalently, the `assert_eq!` in
`RingCT::sign` never fires — whenever the input values sum to the output
amounts in the scalar field; blindings and everything else remain
arbitrary. -/
theorem balance_closes_of_sum_eq (gen hGen : Scalar) (Hp : Scalar → Scalar)
    (cHash : List ℕ → Scalar → Scalar → Scalar → Scalar) (msg : List ℕ)
    (rct : RingCT Scalar) (piWord : ℕ) (rs : ℕ → Scalar)
    (hbal : (rct.true_inputs.map (fun inp => inp.revealed_commitment.value)).sum =
      (rct.outputs.map Output.amount).sum) :
    (RingCT.sign gen hGen Hp cHash msg rct piWord rs).1 ≠
      Except.error SignError.balanceAssert := by
  simp only [RingCT.sign]
  split
  · split
    · simp
    · rename_i lastOut hlast
      rw [if_pos (sign_balance_eq gen hGen rct rs lastOut hlast hbal)]
      split
      · rename_i e iE heq
        rcases signMlsags_error_shape gen hGen Hp cHash msg _ _ rs _ _ _ _
            rct.true_inputs 0 _ e iE heq with he | he <;> simp [he]
      · simp
  · simp

/-- C2 amended witness: a concrete balanced instance never returns the
balance-assert error. -/
theorem balance_closes_of_sum_eq_witness :
    (RingCT.sign (1 : Scalar) 1 (fun _ => 0) (fun _ _ _ _ => 0) []
      ⟨[⟨0, ⟨3, 5⟩⟩], [], [⟨0, 3⟩]⟩ 0 (fun _ => 0)).1 ≠
      Except.error SignError.balanceAssert :=
  balance_closes_of_sum_eq 1 1 (fun _ => 0) (fun _ _ _ _ => 0) []
    ⟨[⟨0, ⟨3, 5⟩⟩], [], [⟨0, 3⟩]⟩ 0 (fun _ => 0) (by decide)

/-- C3: MLSAG ring closure.  When row `pi` of the ring opens as
`(x0*G, x1*G)` with `x0` the secret key and `x1` the blinding difference,
`ringct_mlsag_sign` succeeds, `r[pi]` has the shape
`(alpha0 - c_pi*x0, alpha1 - c_pi*x1)` for the internal challenge `c_pi`,
the three group identities of the claim hold, and the verifier's
challenge chain on the emitted signature rolls back around to `c0`. -/
theorem mlsag_closure_identities (gen hGen : Scalar) (Hp : Scalar → Scalar)
    (cHash : List ℕ → Scalar → Scalar → Scalar → Scalar)
    (msg : List ℕ) (input : TrueInput) (rpc : RevealedCommitment)
    (pi : ℕ) (ring : List (Scalar × Scalar)) (rs : ℕ → Scalar) (i : ℕ)
    (hpi : pi < ring.length)
    (hr1 : (ring.getD pi (0, 0)).1 = smulS input.secret_key gen)
    (hr2 : (ring.getD pi (0, 0)).2 =
      smulS (input.revealed_commitment.blinding - rpc.blinding) gen) :
    ∃ msig cpi,
      (ringct_mlsag_sign gen hGen Hp cHash msg input rpc pi ring rs i).1 = .ok msig ∧
      msig.r.getD pi (0, 0) = (rs i - cpi * input.secret_key,
        rs (i + 1) - cpi * (input.revealed_commitment.blinding - rpc.blinding)) ∧
      smulS (msig.r.getD pi (0, 0)).1 gen + smulS cpi (ring.getD pi (0, 0)).1 =
        smulS (rs i) gen ∧
      smulS (msig.r.getD pi (0, 0)).2 gen + smulS cpi (ring.getD pi (0, 0)).2 =
        smulS (rs (i + 1)) gen ∧
      smulS (msig.r.getD pi (0, 0)).1 (Hp ((ring.getD pi (0, 0)).1)) +
          smulS cpi msig.key_image =
        smulS (rs i) (Hp ((ring.getD pi (0, 0)).1)) ∧
      verify gen Hp cHash (fun _ => true) msg
        ⟨[msig.c0], [msig.r], [msig.key_image]⟩ [msig.ring] = .ok true := by
  obtain ⟨msig, heq, _, hr, hkim, hringeq, hgood⟩ :=
    mlsag_sign_ok gen hGen Hp cHash msg input rpc pi ring rs i hpi hr1 hr2
  have hlenR0 : (mlsagR0 rs i ring.length).length = ring.length := by
    rw [mlsagR0, List.length_map, List.length_range]
  have hrpi : msig.r.getD pi (0, 0) =
      (rs i - (mlsagCF gen Hp cHash msg input pi ring rs i).getD pi 0 * input.secret_key,
       rs (i + 1) - (mlsagCF gen Hp cHash msg input pi ring rs i).getD pi 0 *
         (input.revealed_commitment.blinding - rpc.blinding)) := by
    rw [hr, mlsagRF]
    exact getD_set_self _ _ _ _ (by rw [hlenR0]; exact hpi)
  refine ⟨msig, (mlsagCF gen Hp cHash msg input pi ring rs i).getD pi 0,
    by rw [heq], hrpi, ?_, ?_, ?_, ?_⟩
  · rw [hrpi, hr1]
    simp only [smulS_scalar]
    ring
  · rw [hrpi, hr2]
    simp only [smulS_scalar]
    ring
  · rw [hrpi, hkim, hr1]
    simp only [TrueInput.key_image, TrueInput.public_key, smulS_scalar]
    ring
  · have hv := verifyRings_ok gen Hp cHash msg [msig] [msig] [] rfl
      (fun ms hms => by rw [List.mem_singleton.mp hms]; exact hgood)
    simp only [List.map_cons, List.map_nil, List.length_nil] at hv
    simp only [verify,
      if_pos (List.all_eq_true.mpr (fun (x : Scalar) _ => rfl)),
      if_pos (rfl : ([msig.key_image] : List Scalar).length = [msig.ring].length)]
    exact hv

/-- C3 witness: a concrete one-row ring with openings `(1*G, 1*G)`. -/
theorem mlsag_closure_identities_witness :
    ∃ msig cpi,
      (ringct_mlsag_sign (1 : Scalar) 1 (fun _ => 0) (fun _ _ _ _ => 0) []
        ⟨1, ⟨0, 1⟩⟩ ⟨0, 0⟩ 0 [(1, 1)] (fun _ => 0) 0).1 = .ok msig ∧
      msig.r.getD 0 (0, 0) = ((fun _ => (0 : Scalar)) 0 - cpi * (1 : Scalar),
        (fun _ => (0 : Scalar)) 1 - cpi * ((1 : Scalar) - 0)) ∧
      smulS (msig.r.getD 0 (0, 0)).1 1 + smulS cpi (([((1 : Scalar), (1 : Scalar))].getD 0 (0, 0)).1) =
        smulS ((fun _ => (0 : Scalar)) 0) 1 ∧
      smulS (msig.r.getD 0 (0, 0)).2 1 + smulS cpi (([((1 : Scalar), (1 : Scalar))].getD 0 (0, 0)).2) =
        smulS ((fun _ => (0 : Scalar)) 1) 1 ∧
      smulS (msig.r.getD 0 (0, 0)).1 ((fun _ => (0 : Scalar)) (([((1 : Scalar), (1 : Scalar))].getD 0 (0, 0)).1)) +
          smulS cpi msig.key_image =
        smulS ((fun _ => (0 : Scalar)) 0) ((fun _ => (0 : Scalar)) (([((1 : Scalar), (1 : Scalar))].getD 0 (0, 0)).1)) ∧
      verify (1 : Scalar) (fun _ => 0) (fun _ _ _ _ => 0) (fun _ => true) []
        ⟨[msig.c0], [msig.r], [msig.key_image]⟩ [msig.ring] = .ok true :=
  mlsag_closure_identities 1 1 (fun _ => 0) (fun _ _ _ _ => 0) []
    ⟨1, ⟨0, 1⟩⟩ ⟨0, 0⟩ 0 [(1, 1)] (fun _ => 0) 0
    (by decide) (by decide) (by decide)

theorem sign_ok_key_images {P : Type} [AddCommGroup P] [DecidableEq P]
    (gen hGen : P) (Hp : P → P) (cHash : List ℕ → P → P → P → Scalar)
    (msg : List ℕ) (rct : RingCT P) (piWord : ℕ) (rs : ℕ → Scalar)
    (sig : RingCTSignature P) (rings : List (List (P × P)))
    (h : (RingCT.sign gen hGen Hp cHash msg rct piWord rs).1 = .ok (sig, rings)) :
    sig.key_images = rct.true_inputs.map (TrueInput.key_image gen Hp) := by
  simp only [RingCT.sign] at h
  split at h
  · split at h
    · simp at h
    · split at h
      · split at h
        · simp at h
        · rename_i msigs i2 heq
          simp only [Except.ok.injEq, Prod.mk.injEq] at h
          rw [← h.1]
          exact signMlsags_key_images gen hGen Hp cHash msg _ _ rs _ _ _ _
            rct.true_inputs 0 _ msigs i2 heq
      · simp at h
  · simp at h

/-- C4: key-image determinism.  Whatever the messages, decoys, outputs,
`pi` draws and randomness streams of two successful signing runs, equal
secret keys give equal `key_images`, and the emitted key images are
exactly `secret_key * Hp(secret_key * G)` for each true input — a
function of the secret key (and the fixed hash/generator) alone. -/
theorem key_image_deterministic {P : Type} [AddCommGroup P] [DecidableEq P]
    (gen hGen : P) (Hp : P → P) (cHash : List ℕ → P → P → P → Scalar)
    (msg1 msg2 : List ℕ) (rct1 rct2 : RingCT P) (piW1 piW2 : ℕ)
    (rs1 rs2 : ℕ → Scalar) (sig1 sig2 : RingCTSignature P)
    (rings1 rings2 : List (List (P × P)))
    (h1 : (RingCT.sign gen hGen Hp cHash msg1 rct1 piW1 rs1).1 = .ok (sig1, rings1))
    (h2 : (RingCT.sign gen hGen Hp cHash msg2 rct2 piW2 rs2).1 = .ok (sig2, rings2))
    (hsk : rct1.true_inputs.map TrueInput.secret_key =
      rct2.true_inputs.map TrueInput.secret_key) :
    sig1.key_images = sig2.key_images ∧
    sig1.key_images = rct1.true_inputs.map
      (fun inp => smulS inp.secret_key (Hp (smulS inp.secret_key gen))) := by
  have hk1 := sign_ok_key_images gen hGen Hp cHash msg1 rct1 piW1 rs1 sig1 rings1 h1
  have hk2 := sign_ok_key_images gen hGen Hp cHash msg2 rct2 piW2 rs2 sig2 rings2 h2
  have hfun : ∀ (rct : RingCT P),
      rct.true_inputs.map (TrueInput.key_image gen Hp) =
      (rct.true_inputs.map TrueInput.secret_key).map
        (fun sk => smulS sk (Hp (smulS sk gen))) := by
    intro rct
    rw [List.map_map]
    rfl
  constructor
  · rw [hk1, hk2, hfun, hfun, hsk]
  · rw [hk1, hfun, List.map_map]
    rfl

/-- C4 witness: two runs with different messages, decoys, randomness and
`pi` draws but the same secret key yield the same key image. -/
theorem key_image_deterministic_witness :
    ∃ (sig1 : RingCTSignature Scalar) (rings1 : List (List (Scalar × Scalar)))
      (sig2 : RingCTSignature Scalar) (rings2 : List (List (Scalar × Scalar))),
      (RingCT.sign (1 : Scalar) 1 (fun _ => 0) (fun _ _ _ _ => 0) []
        ⟨[⟨1, ⟨0, 1⟩⟩], [], [⟨0, 0⟩]⟩ 0 (fun _ => 0)).1 = .ok (sig1, rings1) ∧
      (RingCT.sign (1 : Scalar) 1 (fun _ => 0) (fun _ _ _ _ => 0) [1]
        ⟨[⟨1, ⟨0, 1⟩⟩], [[⟨0, 0⟩]], [⟨0, 0⟩]⟩ 5 (fun _ => 1)).1 = .ok (sig2, rings2) ∧
      sig1.key_images = sig2.key_images ∧
      sig1.key_images = [(⟨1, ⟨0, 1⟩⟩ : TrueInput)].map
        (fun inp => smulS inp.secret_key
          ((fun _ => (0 : Scalar)) (smulS inp.secret_key (1 : Scalar)))) := by
  obtain ⟨sig1, rings1, h1⟩ :
      ∃ (s : RingCTSignature Scalar) (r : List (List (Scalar × Scalar))),
        (RingCT.sign (1 : Scalar) 1 (fun _ => 0) (fun _ _ _ _ => 0) []
          ⟨[⟨1, ⟨0, 1⟩⟩], [], [⟨0, 0⟩]⟩ 0 (fun _ => 0)).1 = .ok (s, r) := ⟨_, _, rfl⟩
  obtain ⟨sig2, rings2, h2⟩ :
      ∃ (s : RingCTSignature Scalar) (r : List (List (Scalar × Scalar))),
        (RingCT.sign (1 : Scalar) 1 (fun _ => 0) (fun _ _ _ _ => 0) [1]
          ⟨[⟨1, ⟨0, 1⟩⟩], [[⟨0, 0⟩]], [⟨0, 0⟩]⟩ 5 (fun _ => 1)).1 = .ok (s, r) := ⟨_, _, rfl⟩
  have h := key_image_deterministic 1 1 (fun _ => 0) (fun _ _ _ _ => 0) [] [1]
    ⟨[⟨1, ⟨0, 1⟩⟩], [], [⟨0, 0⟩]⟩ ⟨[⟨1, ⟨0, 1⟩⟩], [[⟨0, 0⟩]], [⟨0, 0⟩]⟩ 0 5
    (fun _ => 0) (fun _ => 1) sig1 sig2 rings1 rings2 h1 h2 (by decide)
  exact ⟨sig1, rings1, sig2, rings2, h1, h2, h.1, h.2⟩

/-- C5 counterexample: with one true input and empty outputs, the embedded
`RingCT::sign` does fail with the empty-outputs panic, but only after one
random scalar (the pseudo-commitment blinding) has been drawn — the
returned stream index is `1`, not `0` — so the failure is not "before any
crypto work / random scalar sampling" as the claim states. -/
theorem sign_empty_outputs_samples_first :
    RingCT.sign (1 : Scalar) 1 (fun _ => 0) (fun _ _ _ _ => 0) []
      ⟨[⟨0, ⟨0, 0⟩⟩], [], []⟩ 0 (fun _ => 0) = (.error .emptyOutputs, 1) ∧
    (1 : ℕ) ≠ 0 := by
  constructor
  · decide
  · decide

/-- C5 amended: on empty outputs (and a rectangular decoy matrix, whose
check runs first), `RingCT::sign` fails with the empty-outputs panic
(modelled as a typed error) before any MLSAG signing, but only after
drawing `pi` and the `M` pseudo-commitment blindings: the returned stream
index equals `M`. -/
theorem sign_empty_outputs_error_after_sampling {P : Type} [AddCommGroup P]
    [DecidableEq P] (gen hGen : P) (Hp : P → P)
    (cHash : List ℕ → P → P → P → Scalar) (msg : List ℕ)
    (rct : RingCT P) (piWord : ℕ) (rs : ℕ → Scalar)
    (hrect : ∀ row ∈ rct.decoy_inputs, row.length = rct.true_inputs.length)
    (hout : rct.outputs = []) :
    RingCT.sign gen hGen Hp cHash msg rct piWord rs =
      (.error .emptyOutputs, rct.true_inputs.length) := by
  have hall : rct.decoy_inputs.all
      (fun row => decide (row.length = rct.true_inputs.length)) = true :=
    List.all_eq_true.mpr fun row hr => decide_eq_true (hrect row hr)
  simp only [RingCT.sign, if_pos hall, hout, List.getLast?_nil, List.length_nil,
    Nat.zero_sub, Nat.add_zero]

/-- C5 amended witness: with two true inputs and empty outputs, exactly
two scalars are drawn before the failure. -/
theorem sign_empty_outputs_error_after_sampling_witness :
    RingCT.sign (1 : Scalar) 1 (fun _ => 0) (fun _ _ _ _ => 0) []
      ⟨[⟨0, ⟨0, 0⟩⟩, ⟨0, ⟨0, 0⟩⟩], [], []⟩ 0 (fun _ => 0) =
      (.error .emptyOutputs, 2) :=
  sign_empty_outputs_error_after_sampling 1 1 (fun _ => 0) (fun _ _ _ _ => 0) []
    ⟨[⟨0, ⟨0, 0⟩⟩, ⟨0, ⟨0, 0⟩⟩], [], []⟩ 0 (fun _ => 0) (by simp) rfl

/-- C6: ragged-matrix precondition.  When some decoy row's width differs
from the number of true inputs, `RingCT::sign` fails with the
ragged-matrix assertion before anything else happens: no scalar is drawn
(the returned stream index is `0`), so in particular no point
multiplication has been performed. -/
theorem sign_ragged_fails_first {P : Type} [AddCommGroup P] [DecidableEq P]
    (gen hGen : P) (Hp : P → P) (cHash : List ℕ → P → P → P → Scalar)
    (msg : List ℕ) (rct : RingCT P) (piWord : ℕ) (rs : ℕ → Scalar)
    (h : ∃ row ∈ rct.decoy_inputs, row.length ≠ rct.true_inputs.length) :
    RingCT.sign gen hGen Hp cHash msg rct piWord rs =
      (.error .raggedDecoyRow, 0) := by
  obtain ⟨row, hmem, hne⟩ := h
  have hall : rct.decoy_inputs.all
      (fun row => decide (row.length = rct.true_inputs.length)) = false := by
    cases hb : rct.decoy_inputs.all
        (fun row => decide (row.length = rct.true_inputs.length))
    · rfl
    · exact absurd (of_decide_eq_true (List.all_eq_true.mp hb row hmem)) hne
  simp only [RingCT.sign, hall, Bool.false_eq_true, if_false]

/-- C6 witness: one decoy row of width `0` against `M = 1`. -/
theorem sign_ragged_fails_first_witness :
    RingCT.sign (1 : Scalar) 1 (fun _ => 0) (fun _ _ _ _ => 0) []
      ⟨[⟨0, ⟨0, 0⟩⟩], [[]], [⟨0, 0⟩]⟩ 0 (fun _ => 0) =
      (.error .raggedDecoyRow, 0) :=
  sign_ragged_fails_first 1 1 (fun _ => 0) (fun _ _ _ _ => 0) []
    ⟨[⟨0, ⟨0, 0⟩⟩], [[]], [⟨0, 0⟩]⟩ 0 (fun _ => 0) ⟨[], by simp, by decide⟩

/-- C7 counterexample: over the full curve group model, the key image
`(0, 1)` is on the curve (the on-curve check, identically `true` on curve
points, passes) but lies outside the prime-order subgroup, and `verify`
accepts a signature carrying it: no subgroup check exists in the code.
The claim that `verify` rejects every key image "not in the correct
prime-order subgroup" is therefore false. -/
theorem verify_accepts_out_of_subgroup_key_image :
    verify (((1 : ZMod rOrder), (0 : ZMod hOrder)) : CurveFull) (fun _ => (0, 0))
      (fun _ _ _ _ => 0) (fun _ => true) []
      (⟨[0], [[(0, 0)]], [((0 : ZMod rOrder), (1 : ZMod hOrder))]⟩ :
        RingCTSignature CurveFull)
      [[((0, 0), (0, 0))]] = .ok true ∧
    ¬ inG1Subgroup ((0 : ZMod rOrder), (1 : ZMod hOrder)) := by
  constructor
  · decide
  · decide

/-- C7 amended: the only key-image validity test `verify` performs is the
curve library's `is_on_curve`; every signature containing a key image
failing that test is rejected (returns `false`) before any per-ring
challenge-chain work, for every choice of rings and hash functions.  No
prime-order-subgroup check is performed (see the counterexample). -/
theorem verify_rejects_off_curve {P : Type} [AddCommGroup P] [DecidableEq P]
    (gen : P) (Hp : P → P) (cHash : List ℕ → P → P → P → Scalar)
    (isOnCurve : P → Bool) (msg : List ℕ) (sig : RingCTSignature P)
    (rings : List (List (P × P))) (ki : P)
    (hmem : ki ∈ sig.key_images) (hoc : isOnCurve ki = false) :
    verify gen Hp cHash isOnCurve msg sig rings = .ok false := by
  have hall : sig.key_images.all isOnCurve = false := by
    cases hb : sig.key_images.all isOnCurve
    · rfl
    · have := List.all_eq_true.mp hb ki hmem
      rw [hoc] at this
      cases this
  simp only [verify, hall, Bool.false_eq_true, if_false]

/-- C7 amended witness: a signature whose single key image fails the
on-curve check is rejected. -/
theorem verify_rejects_off_curve_witness :
    verify (1 : Scalar) (fun _ => 0) (fun _ _ _ _ => 0) (fun _ => false) []
      ⟨[0], [], [0]⟩ [] = .ok false :=
  verify_rejects_off_curve 1 (fun _ => 0) (fun _ _ _ _ => 0) (fun _ => false) []
    ⟨[0], [], [0]⟩ [] 0 (by decide) rfl

/-- C8: verify's dimension gap.  The only dimension check is
`key_images.length = rings.length` (mismatch returns `false`); the lengths
of `sig.c0` and of each `sig.r[m]` are never validated, and an empty ring
is not handled: on a signature with too-short `c0`, an empty ring, or a
too-short `r[m]`, `verify` hits an out-of-bounds `Vec` index (a panic,
modelled as `indexOutOfBounds`) instead of returning `false`. -/
theorem verify_dimension_checks_gap :
    (∀ (gen : Scalar) (Hp : Scalar → Scalar)
      (cHash : List ℕ → Scalar → Scalar → Scalar → Scalar) (onc : Scalar → Bool)
      (msg : List ℕ) (sig : RingCTSignature Scalar)
      (rings : List (List (Scalar × Scalar))),
      sig.key_images.all onc = true → sig.key_images.length ≠ rings.length →
      verify gen Hp cHash onc msg sig rings = .ok false) ∧
    verify (1 : Scalar) (fun _ => 0) (fun _ _ _ _ => 0) (fun _ => true) []
      ⟨[], [[(0, 0)]], [0]⟩ [[(0, 0)]] = .error .indexOutOfBounds ∧
    verify (1 : Scalar) (fun _ => 0) (fun _ _ _ _ => 0) (fun _ => true) []
      ⟨[0], [[(0, 0)]], [0]⟩ [[]] = .error .indexOutOfBounds ∧
    verify (1 : Scalar) (fun _ => 0) (fun _ _ _ _ => 0) (fun _ => true) []
      ⟨[0], [[]], [0]⟩ [[(0, 0)]] = .error .indexOutOfBounds := by
  refine ⟨?_, by decide, by decide, by decide⟩
  intro gen Hp cHash onc msg sig rings h1 h2
  simp only [verify, if_pos h1, if_neg h2]

/-- C8 witness: one key image against zero rings is rejected cleanly. -/
theorem verify_dimension_checks_gap_witness :
    verify (1 : Scalar) (fun _ => 0) (fun _ _ _ _ => 0) (fun _ => true) []
      ⟨[0], [], [0]⟩ [] = .ok false :=
  verify_dimension_checks_gap.1 1 (fun _ => 0) (fun _ _ _ _ => 0) (fun _ => true) []
    ⟨[0], [], [0]⟩ [] (by decide) (by decide)

/-- C9: determinism.  `RingCT::sign` is a function of the message, the
`RingCT` value, the `pi` word and the scalar randomness stream: two runs
with pointwise-equal streams produce identical signatures and rings.
`verify` takes no randomness and is pure: two evaluations on the same
arguments coincide. -/
theorem sign_verify_deterministic {P : Type} [AddCommGroup P] [DecidableEq P]
    (gen hGen : P) (Hp : P → P) (cHash : List ℕ → P → P → P → Scalar)
    (msg : List ℕ) (rct : RingCT P) (piWord : ℕ) (rs1 rs2 : ℕ → Scalar)
    (hrs : ∀ j, rs1 j = rs2 j) :
    RingCT.sign gen hGen Hp cHash msg rct piWord rs1 =
      RingCT.sign gen hGen Hp cHash msg rct piWord rs2 ∧
    ∀ (isOnCurve : P → Bool) (msg2 : List ℕ) (sig : RingCTSignature P)
      (rings : List (List (P × P))),
      verify gen Hp cHash isOnCurve msg2 sig rings =
        verify gen Hp cHash isOnCurve msg2 sig rings := by
  have h : rs1 = rs2 := funext hrs
  subst h
  exact ⟨rfl, fun _ _ _ _ => rfl⟩

/-- C9 witness: two extensionally equal streams, written differently. -/
theorem sign_verify_deterministic_witness :
    RingCT.sign (1 : Scalar) 1 (fun _ => 0) (fun _ _ _ _ => 0) []
      ⟨[⟨1, ⟨0, 1⟩⟩], [], [⟨0, 0⟩]⟩ 0 (fun _ => 0) =
      RingCT.sign (1 : Scalar) 1 (fun _ => 0) (fun _ _ _ _ => 0) []
        ⟨[⟨1, ⟨0, 1⟩⟩], [], [⟨0, 0⟩]⟩ 0 (fun j => 0 * (j : Scalar)) ∧
    ∀ (isOnCurve : Scalar → Bool) (msg2 : List ℕ) (sig : RingCTSignature Scalar)
      (rings : List (List (Scalar × Scalar))),
      verify (1 : Scalar) (fun _ => 0) (fun _ _ _ _ => 0) isOnCurve msg2 sig rings =
        verify (1 : Scalar) (fun _ => 0) (fun _ _ _ _ => 0) isOnCurve msg2 sig rings :=
  sign_verify_deterministic 1 1 (fun _ => 0) (fun _ _ _ _ => 0) []
    ⟨[⟨1, ⟨0, 1⟩⟩], [], [⟨0, 0⟩]⟩ 0 (fun _ => 0) (fun j => 0 * (j : Scalar))
    (fun j => by simp)

theorem card_fin_val_le (M k : ℕ) :
    Fintype.card {x : Fin M // k ≤ x.val} = M - k := by
  have e : {x : Fin M // k ≤ x.val} ≃ Fin (M - k) :=
    { toFun := fun x => ⟨x.1.val - k, by
        have h1 := x.1.isLt
        have h2 := x.2
        omega⟩
      invFun := fun j => ⟨⟨k + j.val, by have := j.isLt; omega⟩, by
        show k ≤ k + j.val
        omega⟩
      left_inv := fun x => by
        apply Subtype.ext
        apply Fin.ext
        have h2 := x.2
        show k + (x.1.val - k) = x.1.val
        omega
      right_inv := fun j => by
        apply Fin.ext
        show k + j.val - k = j.val
        omega }
  rw [Fintype.card_congr e, Fintype.card_fin]

theorem hashLoop_terminates (sha : ℕ → ℕ) :
    ∀ (k h0 : ℕ), sha^[k] h0 < rOrder →
      ∃ s, hashLoop sha (k + 1) h0 = some s ∧ s.val < rOrder := by
  intro k
  induction k with
  | zero =>
    intro h0 hlt
    simp only [Function.iterate_zero, id_eq] at hlt
    exact ⟨((h0 : ℕ) : Scalar), by simp [hashLoop, hlt], ZMod.val_lt _⟩
  | succ k ih =>
    intro h0 hlt
    by_cases hc : h0 < rOrder
    · exact ⟨((h0 : ℕ) : Scalar), by simp [hashLoop, hc], ZMod.val_lt _⟩
    · have hlt2 : sha^[k] (sha h0) < rOrder := by
        rwa [← Function.iterate_succ_apply]
      obtain ⟨s, hs, hv⟩ := ih (sha h0) hlt2
      refine ⟨s, ?_, hv⟩
      simp only [hashLoop, if_neg hc]
      exact hs

/-- C10: hash-to-scalar termination.  (1) For every digest map and input
material, as soon as some iterate of the digest map on the initial digest
is a canonical value (below the field order), the rejection-resample loop
of `hash_to_scalar` terminates and returns a canonical scalar (its value
is below the field order).  (2) Probability 1 over the hash behaviour,
rendered finitarily: among the `(2^256)^N` equally likely length-`N`
digest sequences, exactly `(2^256 - rOrder)^N` consist solely of rejected
values, and that fraction tends to `0` as `N` grows. -/
theorem hash_to_scalar_terminates :
    (∀ (sha : ℕ → ℕ) (material k : ℕ), sha^[k] (sha material) < rOrder →
      ∃ s, hash_to_scalar sha material (k + 1) = some s ∧ s.val < rOrder) ∧
    (∀ N : ℕ, Fintype.card {d : Fin N → Fin (2 ^ 256) // ∀ i, rOrder ≤ (d i).val} =
      (2 ^ 256 - rOrder) ^ N) ∧
    Filter.Tendsto
      (fun N : ℕ => (((2 ^ 256 - rOrder : ℕ) : ℝ) / ((2 ^ 256 : ℕ) : ℝ)) ^ N)
      Filter.atTop (nhds 0) := by
  refine ⟨?_, ?_, ?_⟩
  · intro sha material k h
    exact hashLoop_terminates sha k (sha material) h
  · intro N
    rw [Fintype.card_congr
      (Equiv.subtypePiEquivPi (p := fun (_ : Fin N) (x : Fin (2 ^ 256)) => rOrder ≤ x.val))]
    rw [Fintype.card_pi, Finset.prod_const, card_fin_val_le, Finset.card_univ,
      Fintype.card_fin]
  · apply tendsto_pow_atTop_nhds_zero_of_lt_one
    · positivity
    · rw [div_lt_one (by exact_mod_cast Nat.pos_pow_of_pos 256 (by norm_num))]
      exact_mod_cast Nat.sub_lt (Nat.pos_pow_of_pos 256 (by norm_num)) (by decide)

/-- C10 witness: with the identity digest map and material `0`, the first
digest is already canonical and one loop iteration returns it. -/
theorem hash_to_scalar_terminates_witness :
    ∃ s, hash_to_scalar id 0 (0 + 1) = some s ∧ s.val < rOrder :=
  hash_to_scalar_terminates.1 id 0 0 (by decide)

end SnRingct
